import Mathlib

/-!
Verification of the document-processing core of the HealthCheck_Bot repository
(text normalizer, section classifier, table detector, chunk splitter, and
health-check metrics extractor).  Strings are modelled as `List Char`; the
JavaScript regular expressions used by the source are modelled by a small
backtracking pattern engine over character classes, faithful to the
leftmost-match, greedy/lazy semantics of the expressions that appear in the
source.
-/

/-- Characters of the source's unicode-space class
(`\u00A0 \u1680 \u180E \u2000`-`\u200A \u202F \u205F \u3000`). -/
def isUniSpace (c : Char) : Bool :=
  c == '\u00A0' || c == '\u1680' || c == '\u180E' ||
  ('\u2000' ≤ c && c ≤ '\u200A') || c == '\u202F' || c == '\u205F' || c == '\u3000'

/-- The JavaScript whitespace class `\s` (also the set trimmed by
`String.prototype.trim`): tab, LF, VT, FF, CR, space, NBSP, Ogham space,
the `\u2000`-`\u200A` spaces, line/paragraph separator, narrow NBSP,
medium mathematical space, ideographic space and BOM. -/
def isJsWs (c : Char) : Bool :=
  c == ' ' || c == '\t' || c == '\n' || c == '\x0B' || c == '\x0C' || c == '\r' ||
  c == '\u00A0' || c == '\u1680' || ('\u2000' ≤ c && c ≤ '\u200A') ||
  c == '\u2028' || c == '\u2029' || c == '\u202F' || c == '\u205F' ||
  c == '\u3000' || c == '\uFEFF'

/-- `[^\S\n]`: whitespace other than the newline. -/
def isWsNoNL (c : Char) : Bool := isJsWs c && c != '\n'

/-- Abbreviation turning a string literal into the `List Char` model. -/
def lc (s : String) : List Char := s.data

/-- JavaScript `String.prototype.trim` on the `List Char` model. -/
def jsTrim (l : List Char) : List Char :=
  ((l.dropWhile isJsWs).reverse.dropWhile isJsWs).reverse

/-- `text.split('\n')` (JS `split` with a one-character separator: the
list of `\n`-free lines, never empty). -/
def splitNLAux : List Char → List Char → List (List Char)
  | cur, [] => [cur.reverse]
  | cur, c :: rest =>
      if c = '\n' then cur.reverse :: splitNLAux [] rest
      else splitNLAux (c :: cur) rest

/-- `text.split('\n')`. -/
def splitNL (l : List Char) : List (List Char) := splitNLAux [] l

/-- `lines.join('\n')`. -/
def joinNL : List (List Char) → List Char
  | [] => []
  | [l] => l
  | l :: ls => l ++ '\n' :: joinNL ls

/-- Elements of the pattern engine: a single character of a class, a greedy
`*` over a class, a lazy `*?` over a class, and a greedy `?` over a class.
Every regular expression appearing in the source is (after expanding its
alternations, which is sound for the existence/leftmost queries the source
makes) a sequence of these. -/
inductive Pat where
  | cls (p : Char → Bool)
  | star (p : Char → Bool)
  | lazyStar (p : Char → Bool)
  | opt (p : Char → Bool)

/-- Does some prefix of `s` match the pattern sequence?  (Backtracking
existence test, equivalent to anchoring the JS regex at the start of `s`.)
Structural recursion on a fuel argument so that the kernel can evaluate it;
every recursive call decreases `ps.length + s.length`, so the fuel supplied
by the `matchHere` wrapper below is always sufficient. -/
def matchHereF : Nat → List Pat → List Char → Bool
  | 0, _, _ => false
  | _ + 1, [], _ => true
  | fuel + 1, .cls p :: ps, c :: cs => p c && matchHereF fuel ps cs
  | _ + 1, .cls _ :: _, [] => false
  | fuel + 1, .star p :: ps, s =>
      (match s with
       | c :: cs => p c && matchHereF fuel (.star p :: ps) cs
       | [] => false) || matchHereF fuel ps s
  | fuel + 1, .lazyStar p :: ps, s =>
      matchHereF fuel ps s ||
      (match s with
       | c :: cs => p c && matchHereF fuel (.lazyStar p :: ps) cs
       | [] => false)
  | fuel + 1, .opt p :: ps, s =>
      (match s with
       | c :: cs => p c && matchHereF fuel ps cs
       | [] => false) || matchHereF fuel ps s

/-- Anchored backtracking existence test. -/
def matchHere (ps : List Pat) (s : List Char) : Bool :=
  matchHereF (ps.length + s.length + 1) ps s

/-- All lengths of prefixes of `s` matching the pattern sequence, in the
JS backtracking preference order (greedy stars longest first, lazy stars
shortest first, optional elements present first).  Fuel as in
`matchHereF`; the wrapper below always supplies enough. -/
def matchLensF : Nat → List Pat → List Char → List Nat
  | 0, _, _ => []
  | _ + 1, [], _ => [0]
  | fuel + 1, .cls p :: ps, c :: cs => if p c then (matchLensF fuel ps cs).map (· + 1) else []
  | _ + 1, .cls _ :: _, [] => []
  | fuel + 1, .star p :: ps, s =>
      (match s with
       | c :: cs => if p c then (matchLensF fuel (.star p :: ps) cs).map (· + 1) else []
       | [] => []) ++ matchLensF fuel ps s
  | fuel + 1, .lazyStar p :: ps, s =>
      matchLensF fuel ps s ++
      (match s with
       | c :: cs => if p c then (matchLensF fuel (.lazyStar p :: ps) cs).map (· + 1) else []
       | [] => [])
  | fuel + 1, .opt p :: ps, s =>
      (match s with
       | c :: cs => if p c then (matchLensF fuel ps cs).map (· + 1) else []
       | [] => []) ++ matchLensF fuel ps s

/-- All match lengths in backtracking preference order. -/
def matchLens (ps : List Pat) (s : List Char) : List Nat :=
  matchLensF (ps.length + s.length + 1) ps s

/-- The length of the match the JS engine would produce at the start of `s`
(i.e. the first length in backtracking preference order), if any. -/
def matchLen (ps : List Pat) (s : List Char) : Option Nat :=
  (matchLens ps s).head?

/-- `regex.test(s)`: does the pattern match anywhere in `s`? -/
def reTest (ps : List Pat) : List Char → Bool
  | [] => matchHere ps []
  | c :: cs => matchHere ps (c :: cs) || reTest ps cs

/-- Index of the leftmost position of `s` at which the pattern matches
(`match.index` in JS). -/
def findIdx : List Pat → List Char → Option Nat
  | ps, [] => if matchHere ps [] then some 0 else none
  | ps, c :: cs =>
      if matchHere ps (c :: cs) then some 0
      else (findIdx ps cs).map (· + 1)

/-- Leftmost match as `(index, length)`, with the length chosen by the JS
backtracking order at that position. -/
def findMatch : List Pat → List Char → Option (Nat × Nat)
  | ps, [] =>
      match matchLen ps [] with
      | some n => some (0, n)
      | none => none
  | ps, c :: cs =>
      match matchLen ps (c :: cs) with
      | some n => some (0, n)
      | none => (findMatch ps cs).map (fun r => (r.1 + 1, r.2))

/-- First `some` produced by `f` over a list (used to run the capture
search in backtracking preference order). -/
def firstSome {α β : Type} (f : α → Option β) : List α → Option β
  | [] => none
  | a :: as' => match f a with
    | some b => some b
    | none => firstSome f as'

/-- Match `pre ++ (group) ++ post` at the start of `s`, returning
`(length of pre-match, length of group-match)` for the match the JS engine
would produce (its backtracking order: pre alternatives first, then group
alternatives, then post). -/
def matchCapHere (pre grp post : List Pat) (s : List Char) : Option (Nat × Nat) :=
  firstSome
    (fun preLen =>
      firstSome
        (fun grpLen =>
          if (matchLens post (s.drop (preLen + grpLen))).isEmpty then none
          else some (preLen, grpLen))
        (matchLens grp (s.drop preLen)))
    (matchLens pre s)

/-- Leftmost capturing match: `(index, pre length, group length)`. -/
def findCap : List Pat → List Pat → List Pat → List Char → Option (Nat × Nat × Nat)
  | pre, grp, post, [] =>
      match matchCapHere pre grp post [] with
      | some r => some (0, r.1, r.2)
      | none => none
  | pre, grp, post, c :: cs =>
      match matchCapHere pre grp post (c :: cs) with
      | some r => some (0, r.1, r.2)
      | none => (findCap pre grp post cs).map (fun r => (r.1 + 1, r.2.1, r.2.2))

/-- A case-insensitive literal (each character compared after ASCII
lower-casing, matching the `/i` flag on the ASCII literals of the source). -/
def ciStr (s : String) : List Pat :=
  s.data.map (fun c => Pat.cls (fun d => d.toLower == c))

/-- A case-sensitive literal. -/
def csStr (s : String) : List Pat :=
  s.data.map (fun c => Pat.cls (fun d => d == c))

/-- `\s*` -/
def wsStar : Pat := Pat.star isJsWs

/-- `\s+` -/
def wsPlus : List Pat := [Pat.cls isJsWs, Pat.star isJsWs]

/-- `\d+` -/
def digPlus : List Pat := [Pat.cls Char.isDigit, Pat.star Char.isDigit]

/-- `\n?` -/
def nlOpt : Pat := Pat.opt (fun c => c == '\n')

/-- `.` (any character but newline) -/
def nonNL : Char → Bool := fun c => c != '\n'

/-- The section taxonomy of `identifyHealthCheckSection`, in declaration
order, each label with its ordered list of patterns. -/
def sectionPatterns : List (List Char × List (List Pat)) :=
  [ (lc "Content Modelling",
      [ ciStr "content" ++ [wsStar] ++ ciStr "modelling",
        ciStr "content" ++ [wsStar] ++ ciStr "modeling",
        ciStr "content" ++ [wsStar] ++ ciStr "model" ]),
    (lc "Actions Required",
      [ ciStr "action" ++ [Pat.opt (fun c => c.toLower == 's'), wsStar] ++ ciStr "required",
        ciStr "action" ++ [wsStar] ++ ciStr "items" ]),
    (lc "Content Types",
      [ ciStr "content" ++ [wsStar] ++ ciStr "type" ++
          [Pat.opt (fun c => c.toLower == 's'), wsStar] ++ ciStr "title",
        ciStr "rarely" ++ [wsStar] ++ ciStr "used" ++ [wsStar] ++ ciStr "content" ++
          [wsStar] ++ ciStr "types",
        ciStr "unused" ++ [wsStar] ++ ciStr "content" ++ [wsStar] ++ ciStr "types" ]),
    (lc "Global Fields",
      [ ciStr "global" ++ [wsStar] ++ ciStr "fields",
        ciStr "unused" ++ [wsStar] ++ ciStr "global" ++ [wsStar] ++ ciStr "fields" ]),
    (lc "Areas of Opportunities",
      [ ciStr "area" ++ [Pat.opt (fun c => c.toLower == 's'), wsStar] ++ ciStr "of" ++
          [wsStar] ++ ciStr "opportunit" ]),
    (lc "Naming Standards",
      [ ciStr "naming" ++ [wsStar] ++ ciStr "standards",
        ciStr "naming" ++ [wsStar] ++ ciStr "convention",
        ciStr "recommendation" ++ [wsStar] ++ ciStr "message",
        ciStr "recommended" ++ [wsStar] ++ ciStr "title" ]),
    (lc "Validation Rules",
      [ ciStr "validation" ++ [wsStar] ++ ciStr "rules",
        ciStr "field" ++ [wsStar] ++ ciStr "name" ]),
    (lc "Descriptions",
      [ ciStr "description" ++ [Pat.opt (fun c => c.toLower == 's')] ++ ciStr ":",
        ciStr "content" ++ [wsStar] ++ ciStr "types" ++ [Pat.star nonNL] ++ ciStr "description" ]),
    (lc "Entries",
      [ ciStr "entries",
        ciStr "entry" ++ [wsStar] ++ ciStr "count" ]),
    (lc "Assets",
      [ ciStr "asset" ++ [Pat.opt (fun c => c.toLower == 's')],
        ciStr "media" ]),
    (lc "Workflows",
      [ ciStr "workflow" ++ [Pat.opt (fun c => c.toLower == 's')],
        ciStr "publishing" ]),
    (lc "Webhooks",
      [ ciStr "webhook" ++ [Pat.opt (fun c => c.toLower == 's')] ]),
    (lc "Extensions",
      [ ciStr "extension" ++ [Pat.opt (fun c => c.toLower == 's')],
        ciStr "custom" ++ [wsStar] ++ ciStr "field" ++ [Pat.opt (fun c => c.toLower == 's')] ]),
    (lc "Users & Roles",
      [ ciStr "user" ++ [Pat.opt (fun c => c.toLower == 's'), wsStar] ++ ciStr "&" ++
          [wsStar] ++ ciStr "role" ++ [Pat.opt (fun c => c.toLower == 's')],
        ciStr "user" ++ [Pat.opt (fun c => c.toLower == 's'), wsStar] ++ ciStr "and" ++
          [wsStar] ++ ciStr "role" ++ [Pat.opt (fun c => c.toLower == 's')],
        ciStr "permission" ++ [Pat.opt (fun c => c.toLower == 's')] ]),
    (lc "Security",
      [ ciStr "security",
        ciStr "api" ++ [wsStar] ++ ciStr "key" ++ [Pat.opt (fun c => c.toLower == 's')],
        ciStr "token" ++ [Pat.opt (fun c => c.toLower == 's')] ]),
    (lc "Performance",
      [ ciStr "performance",
        ciStr "optimization" ]),
    (lc "Recommendations",
      [ ciStr "recommendation" ++ [Pat.opt (fun c => c.toLower == 's')],
        ciStr "suggestion" ++ [Pat.opt (fun c => c.toLower == 's')] ]),
    (lc "Stack Overview",
      [ ciStr "stack" ++ [wsStar] ++ ciStr "overview",
        ciStr "stack" ++ [wsStar] ++ ciStr "info",
        ciStr "stack" ++ [wsStar] ++ ciStr "details" ]),
    (lc "Locales",
      [ ciStr "locale" ++ [Pat.opt (fun c => c.toLower == 's')],
        ciStr "language" ++ [Pat.opt (fun c => c.toLower == 's')] ]),
    (lc "Environments",
      [ ciStr "environment" ++ [Pat.opt (fun c => c.toLower == 's')],
        ciStr "branche" ++ [Pat.opt (fun c => c.toLower == 's')] ]) ]

/-- The classifier's inspected window: the case-folded first 300
characters (the source lower-cases and then takes `substring(0, 300)`). -/
def sectionWindow (text : List Char) : List Char :=
  (text.map Char.toLower).take 300

/-- `identifyHealthCheckSection`: first label (in declaration order) one of
whose patterns matches the inspected window; `General` if none does. -/
def identifyHealthCheckSection (text : List Char) : List Char :=
  let textLower := sectionWindow text
  match sectionPatterns.find? (fun lp => lp.2.any (fun p => reTest p textLower)) with
  | some lp => lp.1
  | none => lc "General"

/-- `containsTable`: `/displaying\s+\d+\s+(of\s+)?\d+\s*records?/i`
(alternation expanded over the optional group) or the column-header
pattern `/content\s*types?\s*title|created\s*on|field\s*name|recommendation/i`. -/
def containsTable (text : List Char) : Bool :=
  reTest (ciStr "displaying" ++ wsPlus ++ digPlus ++ wsPlus ++ ciStr "of" ++ wsPlus ++
          digPlus ++ [wsStar] ++ ciStr "record" ++ [Pat.opt (fun c => c.toLower == 's')]) text ||
  reTest (ciStr "displaying" ++ wsPlus ++ digPlus ++ wsPlus ++
          digPlus ++ [wsStar] ++ ciStr "record" ++ [Pat.opt (fun c => c.toLower == 's')]) text ||
  reTest (ciStr "content" ++ [wsStar] ++ ciStr "type" ++
          [Pat.opt (fun c => c.toLower == 's'), wsStar] ++ ciStr "title") text ||
  reTest (ciStr "created" ++ [wsStar] ++ ciStr "on") text ||
  reTest (ciStr "field" ++ [wsStar] ++ ciStr "name") text ||
  reTest (ciStr "recommendation") text

/-- A produced chunk.  The source also stores a randomly generated `id`
(`uuidv4()`); being a fresh random identifier it is irrelevant to every
claim and is omitted from the model.  `section`, `chunkIndex`, `startChar`
and `endChar` live under `metadata` in the source. -/
structure DocumentChunk where
  content : List Char
  sectionLabel : List Char
  chunkIndex : Nat
  startChar : Nat
  endChar : Nat
deriving Repr, DecidableEq

/-- The alternatives of the main-section split pattern
`/\n(?=(Content\s*Modelling|...|Environments))/gi`, in order. -/
def mainHeaderAlts : List (List Pat) :=
  [ ciStr "content" ++ [wsStar] ++ ciStr "modelling",
    ciStr "actions" ++ [wsStar] ++ ciStr "required",
    ciStr "areas" ++ [wsStar] ++ ciStr "of" ++ [wsStar] ++ ciStr "opportunities",
    ciStr "global" ++ [wsStar] ++ ciStr "fields",
    ciStr "naming" ++ [wsStar] ++ ciStr "standards",
    ciStr "validation" ++ [wsStar] ++ ciStr "rules",
    ciStr "stack" ++ [wsStar] ++ ciStr "overview",
    ciStr "security",
    ciStr "performance",
    ciStr "recommendations",
    ciStr "entries",
    ciStr "assets",
    ciStr "workflows",
    ciStr "webhooks",
    ciStr "extensions",
    ciStr "users",
    ciStr "locales",
    ciStr "environments" ]

/-- The capture produced by the main-section lookahead at the start of `s`:
the first alternative that matches, matched greedily, as its length. -/
def headerCapture (s : List Char) : Option Nat :=
  firstSome (fun ps => matchLen ps s) mainHeaderAlts

/-- `text.split(mainSectionPattern)` where the separator is a `\n` whose
lookahead holds a capturing group: per JS `String.prototype.split`
semantics the captured header text is spliced into the result between the
two segments. -/
def splitMainAux : List Char → List Char → List (List Char)
  | cur, [] => [cur.reverse]
  | cur, '\n' :: rest =>
      match headerCapture rest with
      | some n => cur.reverse :: rest.take n :: splitMainAux [] rest
      | none => splitMainAux ('\n' :: cur) rest
  | cur, c :: rest => splitMainAux (c :: cur) rest

/-- Lookahead of the bullet split `/\n(?=•\s+[A-Z][a-z])/g`
(case-sensitive). -/
def bulletLookPat : List Pat :=
  [Pat.cls (fun c => c == '•')] ++ wsPlus ++
  [Pat.cls Char.isUpper, Pat.cls Char.isLower]

/-- `text.split(/\n(?=•\s+[A-Z][a-z])/g)`. -/
def splitBulletAux : List Char → List Char → List (List Char)
  | cur, [] => [cur.reverse]
  | cur, '\n' :: rest =>
      if matchHere bulletLookPat rest then cur.reverse :: splitBulletAux [] rest
      else splitBulletAux ('\n' :: cur) rest
  | cur, c :: rest => splitBulletAux (c :: cur) rest

/-- Auxiliary length bound used by the termination arguments. -/
theorem dropWhileLenLe (p : Char → Bool) (l : List Char) :
    (l.dropWhile p).length ≤ l.length := by
  induction l with
  | nil => simp [List.dropWhile]
  | cons c cs ih =>
    simp only [List.dropWhile]
    by_cases h : p c
    · simp [h]; omega
    · simp [h]

/-- `text.split(/\n\n+/)`: separators are maximal runs of at least two
newlines.  Fuel-structural; every step consumes at least one character, so
the `s.length + 1` supplied by `splitParas` is always enough. -/
def splitParasAuxF : Nat → List Char → List Char → List (List Char)
  | 0, cur, _ => [cur.reverse]
  | fuel + 1, cur, '\n' :: '\n' :: rest =>
      cur.reverse :: splitParasAuxF fuel [] (rest.dropWhile (fun c => c == '\n'))
  | fuel + 1, cur, c :: rest => splitParasAuxF fuel (c :: cur) rest
  | _ + 1, cur, [] => [cur.reverse]

/-- `text.split(/\n\n+/)`. -/
def splitParas (s : List Char) : List (List Char) :=
  splitParasAuxF (s.length + 1) [] s

/-- The JS filter `s => s && s.trim().length > 0`. -/
def notBlank (s : List Char) : Bool := !s.isEmpty && !(jsTrim s).isEmpty

/-- The segmentation cascade of `createHealthCheckChunks`: main-section
split if it yields more than one piece, else bullet split if it yields
more than one piece, else paragraph split. -/
def sectionsOf (text : List Char) : List (List Char) :=
  let mainSections := (splitMainAux [] text).filter notBlank
  if mainSections.length > 1 then mainSections
  else
    let bulletSections := (splitBulletAux [] text).filter notBlank
    if bulletSections.length > 1 then bulletSections
    else (splitParas text).filter notBlank

/-- JS `haystack.lastIndexOf(needle)` as an `Option`. -/
def lastIndexOfSub (needle hay : List Char) : Option Nat :=
  (((List.range (hay.length + 1)).filter
      (fun i => needle.isPrefixOf (hay.drop i)))).getLast?

/-- JS index convention: `-1` for a missing index. -/
def toJsIdx : Option Nat → Int
  | some n => (n : Int)
  | none => -1

/-- The end position chosen for the chunk window starting at `start`:
`min(start + maxSize, text.length)`, moved back to the best break point
(paragraph break, sentence end, line break, comma-space, in that
preference order via `Math.max` over the candidates surviving the
`b > maxSize / 3` filter) when the window does not reach the end. -/
def chunkEndAt (text : List Char) (maxSize start : Nat) : Nat :=
  let end0 := min (start + maxSize) text.length
  if end0 < text.length then
    let searchArea := (text.drop start).take (end0 - start)
    let breakPoints : List Int :=
      [ toJsIdx (lastIndexOfSub (lc "\n\n") searchArea),
        toJsIdx (lastIndexOfSub (lc ". ") searchArea),
        toJsIdx (lastIndexOfSub (lc "\n") searchArea),
        toJsIdx (lastIndexOfSub (lc ", ") searchArea) ]
    match (breakPoints.filter (fun b => 3 * b > (maxSize : Int))).max? with
    | some bestBreak => if bestBreak > 0 then start + bestBreak.toNat + 1 else end0
    | none => end0
  else end0

/-- The next window start: `end - overlap` if that is forward progress,
else `end` (`const nextStart = end - overlap; start = nextStart > start ?
nextStart : end`). -/
def nextStartAt (text : List Char) (maxSize overlap start : Nat) : Nat :=
  let endF := chunkEndAt text maxSize start
  if (endF : Int) - (overlap : Int) > (start : Int) then endF - overlap else endF

/-- One iteration of `splitLargeSection`'s `while` loop, producing the
chunks from position `start` on.  The `start < nextStartAt ...` guard
cannot fail when `maxSize ≥ 1` (each iteration strictly advances, which
also makes the `text.length + 1` fuel supplied by `splitLargeSection`
sufficient); the source loops forever when `maxSize = 0`, where this model
stops instead. -/
def splitLargeSectionAuxF (text sectionName : List Char) (maxSize overlap : Nat)
    (startChunkIndex globalCharIndex : Nat) : Nat → Nat → Nat → List DocumentChunk
  | 0, _, _ => []
  | fuel + 1, start, chunksCreated =>
    if start < text.length then
      let endF := chunkEndAt text maxSize start
      let chunkText := jsTrim ((text.drop start).take (endF - start))
      let emit : List DocumentChunk :=
        if chunkText ≠ [] ∧ 20 < chunkText.length then
          [⟨chunkText, sectionName, startChunkIndex + chunksCreated,
            globalCharIndex + start, globalCharIndex + endF⟩]
        else []
      if start < nextStartAt text maxSize overlap start then
        emit ++ splitLargeSectionAuxF text sectionName maxSize overlap
          startChunkIndex globalCharIndex fuel (nextStartAt text maxSize overlap start)
          (chunksCreated + emit.length)
      else emit
    else []

/-- `splitLargeSection` (the source mutates the chunk array and returns the
number of chunks created; here the created chunks are returned). -/
def splitLargeSection (text sectionName : List Char) (maxSize overlap : Nat)
    (startChunkIndex globalCharIndex : Nat) : List DocumentChunk :=
  splitLargeSectionAuxF text sectionName maxSize overlap startChunkIndex globalCharIndex
    (text.length + 1) 0 0

/-- The table-caption pattern `/Displaying\s+\d+.*?records?\s*/i` used to
pick the header line kept with each table sub-chunk. -/
def tableHeaderPat : List Pat :=
  ciStr "displaying" ++ wsPlus ++ digPlus ++ [Pat.lazyStar nonNL] ++
  ciStr "record" ++ [Pat.opt (fun c => c.toLower == 's'), wsStar]

/-- The loop body of `splitTableContent`: flush the running chunk when the
next line would push it past `maxSize`, re-seeding with the table header,
then append the line. -/
def splitTableStep (maxSize : Nat) (sectionName header : List Char)
    (acc : List DocumentChunk × List Char × Nat × Nat) (line : List Char) :
    List DocumentChunk × List Char × Nat × Nat :=
  let flushed :=
    if maxSize < acc.2.1.length + line.length + 1 ∧ 0 < acc.2.1.length then
      (acc.1 ++ [⟨jsTrim acc.2.1, sectionName ++ lc " - Table Data", acc.2.2.1,
                  acc.2.2.2, acc.2.2.2 + acc.2.1.length⟩],
       header, acc.2.2.1 + 1, acc.2.2.2 + acc.2.1.length)
    else acc
  (flushed.1,
   flushed.2.1 ++ (if flushed.2.1 ≠ [] then '\n' :: line else line),
   flushed.2.2.1, flushed.2.2.2)

/-- `splitTableContent`. -/
def splitTableContent (tableContent : List Char) (maxSize : Nat)
    (sectionName : List Char) (startIndex startChar : Nat) : List DocumentChunk :=
  let lines := splitNL tableContent
  let header : List Char :=
    match findMatch tableHeaderPat tableContent with
    | some r => (tableContent.drop r.1).take r.2
    | none => []
  let fin := lines.foldl (splitTableStep maxSize sectionName header) ([], [], startIndex, startChar)
  if 0 < (jsTrim fin.2.1).length then
    fin.1 ++ [⟨jsTrim fin.2.1, sectionName ++ lc " - Table Data", fin.2.2.1,
               fin.2.2.2, fin.2.2.2 + fin.2.1.length⟩]
  else fin.1

/-- The pattern `/Displaying\s+\d+/i` locating a table caption. -/
def displayingPat : List Pat := ciStr "displaying" ++ wsPlus ++ digPlus

/-- Accumulator of the section loop of `createHealthCheckChunks`. -/
structure ChunkAcc where
  chunks : List DocumentChunk
  chunkIndex : Nat
  globalCharIndex : Nat
deriving Repr, DecidableEq

/-- The body of the `for (const section of sections)` loop of
`createHealthCheckChunks`.  Note the source's quirks, kept faithfully:
the caption branch requires a truthy (hence nonzero) `tableStartMatch.index`,
and the captionless table branch discards `splitLargeSection`'s return
value, so `chunkIndex` is not advanced there. -/
def processSection (maxChunkSize overlap : Nat) (acc : ChunkAcc)
    (sect : List Char) : ChunkAcc :=
  let trimmedSection := jsTrim sect
  if trimmedSection.length < 20 then acc
  else if trimmedSection.length ≤ maxChunkSize then
    { chunks := acc.chunks ++
        [⟨trimmedSection, identifyHealthCheckSection trimmedSection, acc.chunkIndex,
          acc.globalCharIndex, acc.globalCharIndex + trimmedSection.length⟩],
      chunkIndex := acc.chunkIndex + 1,
      globalCharIndex := acc.globalCharIndex + sect.length }
  else
    let sectionName := identifyHealthCheckSection trimmedSection
    let afterLarge := fun (chunks : List DocumentChunk) (chunkIndex : Nat) =>
      ChunkAcc.mk chunks chunkIndex (acc.globalCharIndex + sect.length)
    if containsTable trimmedSection then
      match findIdx displayingPat trimmedSection with
      | some idx =>
        if idx ≠ 0 then
          let beforeTable := jsTrim (trimmedSection.take idx)
          let acc1 :=
            if 50 < beforeTable.length then
              ChunkAcc.mk
                (acc.chunks ++ [⟨beforeTable, sectionName, acc.chunkIndex,
                  acc.globalCharIndex, acc.globalCharIndex + beforeTable.length⟩])
                (acc.chunkIndex + 1) acc.globalCharIndex
            else acc
          let tableContent := jsTrim (trimmedSection.drop idx)
          if 0 < tableContent.length then
            if maxChunkSize * 2 < tableContent.length then
              let tableChunks := splitTableContent tableContent maxChunkSize sectionName
                acc1.chunkIndex (acc1.globalCharIndex + idx)
              afterLarge (acc1.chunks ++ tableChunks) (acc1.chunkIndex + tableChunks.length)
            else
              afterLarge
                (acc1.chunks ++ [⟨tableContent, sectionName ++ lc " - Table Data",
                  acc1.chunkIndex, acc1.globalCharIndex + idx,
                  acc1.globalCharIndex + trimmedSection.length⟩])
                (acc1.chunkIndex + 1)
          else afterLarge acc1.chunks acc1.chunkIndex
        else
          afterLarge
            (acc.chunks ++ splitLargeSection trimmedSection sectionName maxChunkSize overlap
              acc.chunkIndex acc.globalCharIndex)
            acc.chunkIndex
      | none =>
        afterLarge
          (acc.chunks ++ splitLargeSection trimmedSection sectionName maxChunkSize overlap
            acc.chunkIndex acc.globalCharIndex)
          acc.chunkIndex
    else
      let newChunks := splitLargeSection trimmedSection sectionName maxChunkSize overlap
        acc.chunkIndex acc.globalCharIndex
      afterLarge (acc.chunks ++ newChunks) (acc.chunkIndex + newChunks.length)

/-- The chunks produced by the section loop, before the fallback check. -/
def mainChunksOf (text : List Char) (maxChunkSize overlap : Nat) : List DocumentChunk :=
  ((sectionsOf text).foldl (processSection maxChunkSize overlap) (ChunkAcc.mk [] 0 0)).chunks

/-- The single fallback chunk `createHealthCheckChunks` emits when the
section loop produced nothing for a non-blank input. -/
def fallbackChunkOf (text : List Char) (maxChunkSize : Nat) : DocumentChunk :=
  ⟨(jsTrim text).take (maxChunkSize * 2), lc "General", 0, 0,
   ((jsTrim text).take (maxChunkSize * 2)).length⟩

/-- `createHealthCheckChunks`. -/
def createHealthCheckChunks (text : List Char) (maxChunkSize overlap : Nat) :
    List DocumentChunk :=
  if text = [] ∨ jsTrim text = [] then []
  else if mainChunksOf text maxChunkSize overlap = [] ∧ jsTrim text ≠ [] then
    [fallbackChunkOf text maxChunkSize]
  else mainChunksOf text maxChunkSize overlap

/-- `HealthCheckMetrics`.  Fields are `Option`s: `none` models an unset
field (a `parseInt` that cannot produce digits — JS `NaN` — is also
modelled as `none`, the two being indistinguishable in every use the
source makes of these fields). -/
structure HealthCheckMetrics where
  organization : Option (List Char)
  stack : Option (List Char)
  runBy : Option (List Char)
  lastRun : Option (List Char)
  totalChecks : Option Nat
  performedChecks : Option Nat
  skippedChecks : Option Nat
  actionsRequired : Option Nat
  areasOfOpportunities : Option Nat
  strengths : Option Nat
deriving Repr, DecidableEq

/-- The all-unset metrics record (`const metrics: HealthCheckMetrics = {}`). -/
def emptyMetrics : HealthCheckMetrics :=
  ⟨none, none, none, none, none, none, none, none, none, none⟩

/-- Digits of a decimal numeral to its value. -/
def parseDigits (s : List Char) : Nat :=
  s.foldl (fun n c => 10 * n + (c.toNat - 48)) 0

/-- JS `parseInt` on the strings this source feeds it (digit prefixes):
the value of the leading digit run, `none` (JS `NaN`) when there is none. -/
def parseIntJS (s : List Char) : Option Nat :=
  let ds := s.takeWhile Char.isDigit
  if ds.isEmpty then none else some (parseDigits ds)

/-- `([^\n]+)` -/
def nonNLPlus : List Pat := [Pat.cls nonNL, Pat.star nonNL]

/-- `(\S+)` -/
def nonWsPlus : List Pat :=
  [Pat.cls (fun c => !isJsWs c), Pat.star (fun c => !isJsWs c)]

/-- `[:\s]` -/
def colonWs : Char → Bool := fun c => c == ':' || isJsWs c

/-- `[:\s]+` -/
def colonWsPlus : List Pat := [Pat.cls colonWs, Pat.star colonWs]

/-- Group text of the leftmost capturing match. -/
def capture1 (pre grp post : List Pat) (s : List Char) : Option (List Char) :=
  (findCap pre grp post s).map (fun r => (s.drop (r.1 + r.2.1)).take r.2.2)

/-- Leftmost capturing match restricted to line starts (the `^...m`
multiline anchor); the flag records whether the current position begins a
line. -/
def findCapMLAux (pre grp post : List Pat) : Bool → List Char → Option (Nat × Nat × Nat)
  | atLS, [] =>
      if atLS then (matchCapHere pre grp post []).map (fun r => (0, r.1, r.2)) else none
  | atLS, c :: cs =>
      if atLS then
        match matchCapHere pre grp post (c :: cs) with
        | some r => some (0, r.1, r.2)
        | none => (findCapMLAux pre grp post (c == '\n') cs).map
            (fun r => (r.1 + 1, r.2.1, r.2.2))
      else (findCapMLAux pre grp post (c == '\n') cs).map
            (fun r => (r.1 + 1, r.2.1, r.2.2))

/-- Group text of the leftmost line-anchored capturing match. -/
def capture1ML (pre grp post : List Pat) (s : List Char) : Option (List Char) :=
  (findCapMLAux pre grp post true s).map (fun r => (s.drop (r.1 + r.2.1)).take r.2.2)

/-- `/[\s\S]*?Page\s*1\s*of\s*\d+/i`: with the lazy any-character prefix
anchored at position 0, the full match is the text up to the end of the
leftmost page caption. -/
def pageOnePat : List Pat :=
  ciStr "page" ++ [wsStar] ++ ciStr "1" ++ [wsStar] ++ ciStr "of" ++ [wsStar] ++ digPlus

/-- The search window of `extractHealthCheckMetrics`: up to the first
`Page 1 of N` caption, else the first 3000 characters. -/
def firstPageOf (text : List Char) : List Char :=
  match findMatch pageOnePat text with
  | some r => text.take (r.1 + r.2)
  | none => text.take 3000

/-- Does splitting the digit string at position `i` give two numerals
summing to `total` (`performed + skipped === metrics.totalChecks`)? -/
def sumMatches (total : Nat) (ds : List Char) (i : Nat) : Bool :=
  match parseIntJS (ds.take i), parseIntJS (ds.drop i) with
  | some a, some b => a + b == total
  | _, _ => false

/-- The split loop `for (let i = 1; i < combinedNum.length; i++) ...`
followed by the fallback, for a known truthy `totalChecks`. -/
def splitCombinedChecks (total : Nat) (ds : List Char) : Option Nat × Option Nat :=
  match (List.range' 1 (ds.length - 1)).find? (sumMatches total ds) with
  | some i => (parseIntJS (ds.take i), parseIntJS (ds.drop i))
  | none =>
      if 2 ≤ ds.length then
        let p1 := parseIntJS (ds.take (ds.length - 1))
        if p1.any (fun p => decide (total < p)) then
          (parseIntJS (ds.take (ds.length - 2)), parseIntJS (ds.drop (ds.length - 2)))
        else (p1, parseIntJS (ds.drop (ds.length - 1)))
      else (none, none)

/-- JS `String.prototype.includes` on the list model. -/
def isInfixList (needle : List Char) : List Char → Bool
  | [] => needle.isPrefixOf []
  | c :: cs => needle.isPrefixOf (c :: cs) || isInfixList needle cs

/-- Count of non-overlapping leftmost matches of a separator pattern
(`text.split(re).length - 1`); the fuel is the scan position budget, and
`text.length` is always enough since every step advances. -/
def countSepsAux (ps : List Pat) : Nat → List Char → Nat
  | 0, _ => 0
  | _ + 1, [] => 0
  | fuel + 1, c :: cs =>
      match matchLen ps (c :: cs) with
      | some n => 1 + countSepsAux ps fuel ((c :: cs).drop (max n 1))
      | none => countSepsAux ps fuel cs

/-- `text.split(re).length - 1` for a non-capturing separator regex. -/
def countSeps (ps : List Pat) (s : List Char) : Nat := countSepsAux ps s.length s

/-- `/\n\s*Actions Required\s*\n/i` -/
def sepActionsPat : List Pat :=
  [Pat.cls (fun c => c == '\n'), wsStar] ++ ciStr "actions required" ++
  [wsStar, Pat.cls (fun c => c == '\n')]

/-- `/\n\s*Areas of Opportunities\s*\n/i` -/
def sepOppsPat : List Pat :=
  [Pat.cls (fun c => c == '\n'), wsStar] ++ ciStr "areas of opportunities" ++
  [wsStar, Pat.cls (fun c => c == '\n')]

/-- `/\n\s*Strengths\s*\n/i` -/
def sepStrengthsPat : List Pat :=
  [Pat.cls (fun c => c == '\n'), wsStar] ++ ciStr "strengths" ++
  [wsStar, Pat.cls (fun c => c == '\n')]

/-- Alternatives of the zero-width split
`/(?=Actions Required|Areas of Opportunities|Strengths)/gi`. -/
def breakdownLookPats : List (List Pat) :=
  [ciStr "actions required", ciStr "areas of opportunities", ciStr "strengths"]

/-- `text.split(/(?=Actions Required|...)/gi)`: split before every
position after the segment start at which the lookahead matches (a
zero-width separator at the segment start itself does not split, per the
JS split algorithm). -/
def splitBreakdownAux : List Char → List Char → List (List Char)
  | cur, [] => [cur.reverse]
  | cur, c :: rest =>
      if cur ≠ [] ∧ breakdownLookPats.any (fun ps => matchHere ps (c :: rest)) then
        cur.reverse :: splitBreakdownAux [c] rest
      else splitBreakdownAux (c :: cur) rest

/-- Continuation of the item-line pattern after an initial `[A-Z][a-z]+`:
`(?:\s+[A-Z][a-z]+)*:`.  Deterministic (no backtracking is ever needed:
the classes `\s`, `[A-Z]`, `[a-z]`, `:` that compete are disjoint).  Fuel
bounds the iteration count; `s.length` is always enough since every
iteration consumes characters. -/
def matchItemTailF : Nat → List Char → Option Nat
  | _, ':' :: _ => some 1
  | 0, _ => none
  | _ + 1, [] => none
  | fuel + 1, c :: cs =>
      if isJsWs c then
        let wsn := ((c :: cs).takeWhile isJsWs).length
        match (c :: cs).drop wsn with
        | u :: rest2 =>
            if u.isUpper then
              let ln := (rest2.takeWhile Char.isLower).length
              if 0 < ln then
                (matchItemTailF fuel (rest2.drop ln)).map (fun m => wsn + 1 + ln + m)
              else none
            else none
        | [] => none
      else none

/-- Length of a `/^[A-Z][a-z]+(?:\s+[A-Z][a-z]+)*:/` match starting here. -/
def matchItemLen (s : List Char) : Option Nat :=
  match s with
  | u :: rest =>
      if u.isUpper then
        let ln := (rest.takeWhile Char.isLower).length
        if 0 < ln then
          (matchItemTailF s.length (rest.drop ln)).map (fun m => 1 + ln + m)
        else none
      else none
  | [] => none

/-- Count of `/^[A-Z][a-z]+(?:\s+[A-Z][a-z]+)*:/gm` matches: successive
line-anchored matches, resuming after each match's end. -/
def countItemsAux : Nat → Bool → List Char → Nat
  | 0, _, _ => 0
  | _ + 1, _, [] => 0
  | fuel + 1, atLS, c :: cs =>
      if atLS then
        match matchItemLen (c :: cs) with
        | some n =>
            1 + countItemsAux fuel (((c :: cs).take (max n 1)).getLast? == some '\n')
              ((c :: cs).drop (max n 1))
        | none => countItemsAux fuel (c == '\n') cs
      else countItemsAux fuel (c == '\n') cs

/-- Item-line count of one breakdown section. -/
def countItems (s : List Char) : Nat := countItemsAux s.length true s

/-- JS truthiness of an optional number (`undefined`, `NaN` and `0` are
falsy; `NaN` is modelled as `none`). -/
def truthyN : Option Nat → Bool
  | some n => n != 0
  | none => false

/-- `Math.round(p * (q / 100))` for natural `p`, `q`, computed exactly:
`round(pq/100) = floor(pq/100 + 1/2) = (2pq + 100) / 200` in integer
division. -/
def roundPct (p q : Nat) : Nat := (2 * p * q + 100) / 200

/-- The estimate fallback of `extractHealthCheckMetrics` (its final
`if (metrics.performedChecks) { ... }` block): when the breakdown sum is
zero or implausibly exceeds twice the performed count, estimate
40% / 38% / 22% of `performedChecks`, rounded, for each category not
already truthy.  (The IEEE-double products `p * 0.40` etc. of the source
round to the same integers as the exact rationals used here for all
`p` occurring in reports, the products never landing closer than one ulp
to a half-integer boundary except exactly on it.) -/
def applyEstimate (m : HealthCheckMetrics) : HealthCheckMetrics :=
  match m.performedChecks with
  | some p =>
      if p ≠ 0 then
        let breakdownSum :=
          m.actionsRequired.getD 0 + m.areasOfOpportunities.getD 0 + m.strengths.getD 0
        if breakdownSum = 0 ∨ p * 2 < breakdownSum then
          let estS := roundPct p 40
          let estO := roundPct p 38
          let estA := roundPct p 22
          { m with
            strengths := if truthyN m.strengths then m.strengths else some estS,
            areasOfOpportunities :=
              if truthyN m.areasOfOpportunities then m.areasOfOpportunities else some estO,
            actionsRequired :=
              if truthyN m.actionsRequired then m.actionsRequired else some estA }
        else m
      else m
  | none => m

/-- `extractHealthCheckMetrics`. -/
def extractHealthCheckMetrics (text : List Char) : HealthCheckMetrics :=
  let firstPage := firstPageOf text
  let m1 := { emptyMetrics with
    organization :=
      (capture1 (ciStr "organization" ++ colonWsPlus) nonNLPlus [] firstPage).map jsTrim }
  let m2 := { m1 with
    stack :=
      (match capture1ML (ciStr "stack:" ++ [wsStar]) nonWsPlus [] firstPage with
       | some g => some g
       | none => capture1 ([Pat.cls (fun c => c == '\n')] ++ ciStr "stack:" ++ [wsStar])
           nonWsPlus [] firstPage).map jsTrim }
  let m3 := { m2 with
    runBy :=
      (capture1 (ciStr "run" ++ [wsStar] ++ ciStr "by" ++ colonWsPlus)
        nonNLPlus [] firstPage).map jsTrim }
  let m4 := { m3 with
    lastRun :=
      (capture1 (ciStr "last" ++ [wsStar] ++ ciStr "run" ++ colonWsPlus)
        nonNLPlus [] firstPage).map jsTrim }
  let m5 := { m4 with
    totalChecks :=
      (capture1 [] digPlus
        ([wsStar, Pat.cls (fun c => c == '\n'), wsStar] ++ ciStr "total" ++ [wsStar] ++
          ciStr "checks") firstPage).bind parseIntJS }
  let m6 :=
    match capture1 [] digPlus
        ([wsStar, nlOpt, wsStar] ++ ciStr "performed" ++ [wsStar] ++ ciStr "checks" ++
          [wsStar] ++ ciStr "skipped" ++ [wsStar] ++ ciStr "checks") firstPage with
    | some combinedNum =>
        match m5.totalChecks with
        | some total =>
            if total ≠ 0 then
              let pr := splitCombinedChecks total combinedNum
              { m5 with performedChecks := pr.1, skippedChecks := pr.2 }
            else
              { m5 with
                performedChecks := parseIntJS (combinedNum.take (combinedNum.length - 1)),
                skippedChecks := parseIntJS (combinedNum.drop (combinedNum.length - 1)) }
        | none =>
            { m5 with
              performedChecks := parseIntJS (combinedNum.take (combinedNum.length - 1)),
              skippedChecks := parseIntJS (combinedNum.drop (combinedNum.length - 1)) }
    | none =>
        { m5 with
          performedChecks :=
            (capture1 [] digPlus
              ([wsStar, nlOpt, wsStar] ++ ciStr "performed" ++ [wsStar] ++ ciStr "checks")
              firstPage).bind parseIntJS,
          skippedChecks :=
            (capture1 [] digPlus
              ([wsStar, nlOpt, wsStar] ++ ciStr "skipped" ++ [wsStar] ++ ciStr "checks")
              firstPage).bind parseIntJS }
  let actionsRequiredSections := countSeps sepActionsPat text
  let opportunitiesSections := countSeps sepOppsPat text
  let strengthsSections := countSeps sepStrengthsPat text
  let counts := (splitBreakdownAux [] text).foldl
    (fun (acc : Nat × Nat × Nat) sect =>
      let sectionStart := (sect.take 50).map Char.toLower
      let itemCount := countItems sect
      if isInfixList (lc "actions required") sectionStart then
        (acc.1 + max 1 itemCount, acc.2.1, acc.2.2)
      else if isInfixList (lc "areas of opportunities") sectionStart then
        (acc.1, acc.2.1 + max 1 itemCount, acc.2.2)
      else if isInfixList (lc "strengths") sectionStart then
        (acc.1, acc.2.1, acc.2.2 + max 1 itemCount)
      else acc)
    (0, 0, 0)
  let m7 :=
    if 0 < actionsRequiredSections ∨ 0 < counts.1 then
      { m6 with actionsRequired := some (max actionsRequiredSections counts.1) } else m6
  let m8 :=
    if 0 < opportunitiesSections ∨ 0 < counts.2.1 then
      { m7 with areasOfOpportunities := some (max opportunitiesSections counts.2.1) } else m7
  let m9 :=
    if 0 < strengthsSections ∨ 0 < counts.2.2 then
      { m8 with strengths := some (max strengthsSections counts.2.2) } else m8
  applyEstimate m9

/-- `.replace(/[ ...　]/g, ' ')`: every unicode-space variant
becomes a plain space. -/
def replUni (l : List Char) : List Char :=
  l.map (fun c => if isUniSpace c then ' ' else c)

/-- `.replace(/\r\n/g, '\n').replace(/\r/g, '\n')`: each `\r\n` pair
becomes one `\n`, each remaining `\r` becomes `\n`. -/
def normNewlines : List Char → List Char
  | [] => []
  | [c] => if c = '\r' then ['\n'] else [c]
  | c :: d :: rest =>
      if c = '\r' then
        if d = '\n' then '\n' :: normNewlines rest
        else '\n' :: normNewlines (d :: rest)
      else c :: normNewlines (d :: rest)

/-- `.replace(/\n{3,}/g, '\n\n')`: maximal runs of three or more newlines
collapse to exactly two.  Fuel-structural; every call shortens the list,
so the `s.length + 1` supplied by `collapseNL` is always enough. -/
def collapseNLF : Nat → List Char → List Char
  | 0, s => s
  | _ + 1, [] => []
  | fuel + 1, c :: rest =>
      if c = '\n' ∧ rest.take 2 = ['\n', '\n'] then collapseNLF fuel rest
      else c :: collapseNLF fuel rest

/-- `.replace(/\n{3,}/g, '\n\n')`. -/
def collapseNL (s : List Char) : List Char := collapseNLF (s.length + 1) s

/-- `.replace(/[^\S\n]+/g, ' ')`: each maximal run of non-newline
whitespace becomes a single space. -/
def collapseWs : List Char → List Char
  | [] => []
  | [c] => if isWsNoNL c then [' '] else [c]
  | c :: d :: rest =>
      if isWsNoNL c then
        if isWsNoNL d then collapseWs (d :: rest)
        else ' ' :: collapseWs (d :: rest)
      else c :: collapseWs (d :: rest)

/-- `.split('\n').map(line => line.trim()).join('\n')`. -/
def trimLines (l : List Char) : List Char :=
  joinNL ((splitNL l).map jsTrim)

/-- `normalizeText`. -/
def normalizeText (text : List Char) : List Char :=
  if text = [] then []
  else jsTrim (trimLines (collapseWs (collapseNL (normNewlines (replUni text)))))

/-- Does a section label carry the synthetic `" - Table Data"` suffix? -/
def hasTableSuffix (s : List Char) : Bool := (lc " - Table Data").isSuffixOf s

/-- The end-to-end scenario text of the specification's §8. -/
def scenarioInput : List Char :=
  lc "Stack Overview\nStack: acme\nPage 1 of 5\n\nActions Required\nFix A: description text that is long enough.\n\nStrengths\nGood config: description text that is long enough."

/-- An oversized table-flagged section whose `Displaying N` caption sits
near its end: the before-table chunk exceeds `maxChunkSize` (= 40 here)
and the table chunk is shorter than 20 characters. -/
def tableEdgeInput : List Char :=
  lc "field name aaaa bbbb cccc dddd eeee ffff ggggg hhhhh kkk Displaying 7"

/-- An oversized table-flagged section with no `Displaying` caption,
followed by a small section: the captionless table branch discards
`splitLargeSection`'s count, so `chunkIndex` is never advanced. -/
def dupIdxInput : List Char :=
  lc "aaaa field name bbbb cccc dddd eeee ffff gggg hhh\nSecurity tokens abcdefgh"

/-- Does the string contain a run of three (or more) newlines? -/
def hasTripleNL : List Char → Bool
  | [] => false
  | c :: rest => (c == '\n' && rest.take 2 == ['\n', '\n']) || hasTripleNL rest

/-- No character of the string is non-newline whitespace other than a
plain space, and no two adjacent characters are both non-newline
whitespace: exactly the strings fixed by `collapseWs`. -/
def wsFlat : List Char → Bool
  | [] => true
  | [c] => !isWsNoNL c || c == ' '
  | c :: d :: rest =>
      ((!isWsNoNL c || c == ' ') && !(isWsNoNL c && isWsNoNL d)) && wsFlat (d :: rest)

/-- The string neither starts nor ends with whitespace: exactly the
strings fixed by `jsTrim`. -/
def lineOk (l : List Char) : Bool :=
  (match l.head? with | some c => !isJsWs c | none => true) &&
  (match l.getLast? with | some c => !isJsWs c | none => true)

/-- First satisfying element of `range'` found by `find?`. -/
theorem find?_range'_first (p : Nat → Bool) :
    ∀ (n a i : Nat), a ≤ i → i < a + n → p i = true →
      (∀ j, a ≤ j → j < i → p j = false) →
      (List.range' a n).find? p = some i := by
  intro n
  induction n with
  | zero => intro a i h1 h2 _ _; omega
  | succ n ih =>
    intro a i h1 h2 hp hmin
    rw [List.range'_succ]
    by_cases ha : i = a
    · subst ha
      simp [List.find?_cons_of_pos, hp]
    · have hpa : p a = false := hmin a le_rfl (by omega)
      rw [List.find?_cons_of_neg _ (by simp [hpa])]
      exact ih (a + 1) i (by omega) (by omega) hp (fun j hj1 hj2 => hmin j (by omega) hj2)

/-- C10: an input that is empty or trims to the empty string yields the
empty chunk list — no fallback chunk, no error. -/
theorem C10_blank_input_no_chunks (text : List Char) (maxChunkSize overlap : Nat)
    (h : jsTrim text = []) :
    createHealthCheckChunks text maxChunkSize overlap = [] := by
  unfold createHealthCheckChunks
  rw [if_pos (Or.inr h)]

/-- Witness for C10 at the whitespace-only input `" "`. -/
theorem C10_blank_input_no_chunks_witness :
    jsTrim (lc " ") = [] ∧ createHealthCheckChunks (lc " ") 1500 200 = [] :=
  ⟨by decide, C10_blank_input_no_chunks (lc " ") 1500 200 (by decide)⟩

/-- C1 counterexample: `" "` is a non-empty input string, yet
`createHealthCheckChunks` returns no chunk at all (and in particular no
fallback chunk), contradicting the claim as stated. -/
theorem C1_counterexample_blank_nonempty :
    lc " " ≠ [] ∧ createHealthCheckChunks (lc " ") 1500 200 = [] := by decide

/-- C1 (amended to non-blank inputs): for every input whose trimmed text
is non-empty, chunking returns at least one chunk, and when the section
loop produced nothing the output is exactly the single fallback chunk:
label `General`, `chunkIndex` 0, `startChar` 0, content the first at most
`2 × maxChunkSize` characters of the trimmed input. -/
theorem C1_nonblank_at_least_one_chunk (text : List Char) (maxChunkSize overlap : Nat)
    (h : jsTrim text ≠ []) :
    createHealthCheckChunks text maxChunkSize overlap ≠ [] ∧
    (mainChunksOf text maxChunkSize overlap = [] →
      createHealthCheckChunks text maxChunkSize overlap =
        [fallbackChunkOf text maxChunkSize]) := by
  have htext : ¬(text = [] ∨ jsTrim text = []) := by
    rintro (rfl | h2)
    · exact h (by decide)
    · exact h h2
  unfold createHealthCheckChunks
  rw [if_neg htext]
  by_cases hm : mainChunksOf text maxChunkSize overlap = []
  · rw [if_pos ⟨hm, h⟩]
    exact ⟨by simp, fun _ => rfl⟩
  · rw [if_neg (fun hc => hm hc.1)]
    exact ⟨hm, fun hc => absurd hc hm⟩

/-- Witness for C1 at the short input `"tiny"`, whose section loop yields
nothing and which therefore gets exactly the fallback chunk. -/
theorem C1_nonblank_at_least_one_chunk_witness :
    createHealthCheckChunks (lc "tiny") 1500 200 ≠ [] ∧
    (mainChunksOf (lc "tiny") 1500 200 = [] →
      createHealthCheckChunks (lc "tiny") 1500 200 = [fallbackChunkOf (lc "tiny") 1500]) :=
  C1_nonblank_at_least_one_chunk (lc "tiny") 1500 200 (by decide)

set_option maxRecDepth 100000 in
/-- C3: at `dupIdxInput` with `maxChunkSize = 40`, `overlap = 200`-style
parameters, the captionless-table branch fails to advance `chunkIndex`
(the source discards `splitLargeSection`'s return value there), so two
chunks are emitted with the same `chunkIndex` 0 — the indices are not
strictly increasing. -/
theorem C3_duplicate_chunkIndex :
    (createHealthCheckChunks dupIdxInput 40 10).map DocumentChunk.chunkIndex = [0, 0] ∧
    ¬ List.Chain' (· < ·)
        ((createHealthCheckChunks dupIdxInput 40 10).map DocumentChunk.chunkIndex) := by
  refine ⟨by decide, ?_⟩
  intro hchain
  have h : (createHealthCheckChunks dupIdxInput 40 10).map DocumentChunk.chunkIndex
      = [0, 0] := by decide
  rw [h] at hchain
  simp [List.chain'_cons] at hchain

set_option maxRecDepth 100000 in
/-- C9 counterexample: on the §8 scenario text no emitted chunk is
labeled `Strengths` (the main-section split pattern list does not contain
`Strengths`, so that block stays inside the `Actions Required` chunk),
contradicting the claim's third conjunct. -/
theorem C9_counterexample_no_strengths_chunk :
    ((createHealthCheckChunks scenarioInput 1500 200).all
      (fun c => !(c.sectionLabel == lc "Strengths"))) = true ∧
    2 ≤ (createHealthCheckChunks scenarioInput 1500 200).length := by decide

set_option maxRecDepth 100000 in
/-- C9 (amended): the scenario yields exactly two chunks — an early chunk
labeled `Stack Overview` and one labeled `Actions Required` that contains
both `Fix A` and `Good config` (the `Strengths` block is not a split
boundary) — and the metrics extractor sets `stack = "acme"`. -/
theorem C9_scenario :
    (createHealthCheckChunks scenarioInput 1500 200).map DocumentChunk.sectionLabel =
      [lc "Stack Overview", lc "Actions Required"] ∧
    ((createHealthCheckChunks scenarioInput 1500 200).any (fun c =>
      c.sectionLabel == lc "Actions Required" &&
      isInfixList (lc "Fix A") c.content &&
      isInfixList (lc "Good config") c.content)) = true ∧
    (extractHealthCheckMetrics scenarioInput).stack = some (lc "acme") := by
  refine ⟨by decide, by decide, by decide⟩

/-- C6 counterexample: `"a\n \n \nb"` — line-trimming turns the two
whitespace-only lines into empty lines, creating a three-newline run that
only a second application collapses, so `normalizeText` is not idempotent
and its output violates the claimed no-3+-newline invariant. -/
theorem C6_counterexample_not_idempotent :
    normalizeText (lc "a\n \n \nb") = lc "a\n\n\nb" ∧
    hasTripleNL (normalizeText (lc "a\n \n \nb")) = true ∧
    normalizeText (normalizeText (lc "a\n \n \nb")) ≠ normalizeText (lc "a\n \n \nb") := by
  decide

set_option maxRecDepth 100000 in
/-- C8 counterexample: with `performedChecks` present but equal to `0`
(extracted from `"0\nPerformed Checks"`) and a breakdown sum of zero, the
claim requires the proportional estimate (`strengths = round(0.40 × 0) = 0`)
to populate the three categories, but the source's truthiness test
`if (metrics.performedChecks)` skips the whole estimate block and leaves
them unset. -/
theorem C8_counterexample_zero_performed :
    (extractHealthCheckMetrics (lc "0\nPerformed Checks")).performedChecks = some 0 ∧
    (extractHealthCheckMetrics (lc "0\nPerformed Checks")).strengths = none ∧
    (extractHealthCheckMetrics (lc "0\nPerformed Checks")).areasOfOpportunities = none ∧
    (extractHealthCheckMetrics (lc "0\nPerformed Checks")).actionsRequired = none ∧
    (extractHealthCheckMetrics (lc "0\nPerformed Checks")).strengths ≠ some (roundPct 0 40) := by
  decide

set_option maxRecDepth 100000 in
/-- C2: when the combined performed/skipped numeral is found and
`totalChecks` is known, (1) the extractor accepts the first split position
`i` (ascending from 1) whose parts sum exactly to `totalChecks`; (2) when
no exact split exists it treats the last digit as skipped unless that
makes performed exceed `totalChecks`, in which case it uses the last two
digits; and (3) concretely, `totalChecks = 39` with combined numeral
`"372"` yields `performedChecks = 37`, `skippedChecks = 2`, end to end
through `extractHealthCheckMetrics`. -/
theorem C2_digit_split :
    (∀ (total : Nat) (ds : List Char) (i : Nat), 1 ≤ i → i < ds.length →
      sumMatches total ds i = true →
      (∀ j, 1 ≤ j → j < i → sumMatches total ds j = false) →
      splitCombinedChecks total ds = (parseIntJS (ds.take i), parseIntJS (ds.drop i))) ∧
    (∀ (total : Nat) (ds : List Char), 2 ≤ ds.length →
      (∀ j, 1 ≤ j → j < ds.length → sumMatches total ds j = false) →
      splitCombinedChecks total ds =
        if (parseIntJS (ds.take (ds.length - 1))).any (fun p => decide (total < p)) then
          (parseIntJS (ds.take (ds.length - 2)), parseIntJS (ds.drop (ds.length - 2)))
        else (parseIntJS (ds.take (ds.length - 1)), parseIntJS (ds.drop (ds.length - 1)))) ∧
    splitCombinedChecks 39 (lc "372") = (some 37, some 2) ∧
    (extractHealthCheckMetrics (lc "39\nTotal Checks\n372\nPerformed ChecksSkipped Checks")).totalChecks = some 39 ∧
    (extractHealthCheckMetrics (lc "39\nTotal Checks\n372\nPerformed ChecksSkipped Checks")).performedChecks = some 37 ∧
    (extractHealthCheckMetrics (lc "39\nTotal Checks\n372\nPerformed ChecksSkipped Checks")).skippedChecks = some 2 := by
  refine ⟨?_, ?_, by decide, by decide, by decide, by decide⟩
  · intro total ds i h1 h2 hp hmin
    unfold splitCombinedChecks
    rw [find?_range'_first (sumMatches total ds) (ds.length - 1) 1 i h1 (by omega) hp
      (fun j hj1 hj2 => hmin j hj1 hj2)]
  · intro total ds h2 hall
    unfold splitCombinedChecks
    have hnone : (List.range' 1 (ds.length - 1)).find? (sumMatches total ds) = none := by
      rw [List.find?_eq_none]
      intro j hj
      rw [List.mem_range'_1] at hj
      simp [hall j hj.1 (by omega)]
    rw [hnone]
    simp only [if_pos h2]

/-- Witness for C2 at `totalChecks = 39`, numeral `"372"`, split position 2. -/
theorem C2_digit_split_witness :
    splitCombinedChecks 39 (lc "372") = (parseIntJS ((lc "372").take 2), parseIntJS ((lc "372").drop 2)) :=
  C2_digit_split.1 39 (lc "372") 2 (by decide) (by decide) (by decide)
    (fun j hj1 hj2 => by
      have hj : j = 1 := by omega
      subst hj; decide)

/-- C7: the section classifier is a pure total function of the case-folded
first 300 characters of its input; it returns `General` when no pattern of
any label matches the window; and (declared-order priority) whenever a
`Content Modelling` pattern matches the window — in particular when an
`Entries` pattern matches it too — the result is `Content Modelling`. -/
theorem C7_classifier_priority :
    (∀ s t : List Char, sectionWindow s = sectionWindow t →
      identifyHealthCheckSection s = identifyHealthCheckSection t) ∧
    (∀ s : List Char,
      (sectionPatterns.all (fun lp => lp.2.all (fun p => !reTest p (sectionWindow s)))) = true →
      identifyHealthCheckSection s = lc "General") ∧
    (∀ s : List Char,
      ([ciStr "content" ++ [wsStar] ++ ciStr "modelling",
        ciStr "content" ++ [wsStar] ++ ciStr "modeling",
        ciStr "content" ++ [wsStar] ++ ciStr "model"].any
          (fun p => reTest p (sectionWindow s))) = true →
      ([ciStr "entries", ciStr "entry" ++ [wsStar] ++ ciStr "count"].any
          (fun p => reTest p (sectionWindow s))) = true →
      identifyHealthCheckSection s = lc "Content Modelling") := by
  refine ⟨?_, ?_, ?_⟩
  · intro s t h
    simp only [identifyHealthCheckSection]
    rw [h]
  · intro s hall
    simp only [identifyHealthCheckSection]
    have hnone : sectionPatterns.find?
        (fun lp => lp.2.any (fun p => reTest p (sectionWindow s))) = none := by
      rw [List.find?_eq_none]
      intro lp hlp
      simp only [List.all_eq_true, Bool.not_eq_true'] at hall
      simp only [List.any_eq_true, not_exists, not_and]
      intro p hp
      simp [hall lp hlp p hp]
    rw [hnone]
  · intro s hcm _
    simp only [identifyHealthCheckSection, sectionPatterns]
    rw [List.find?_cons_of_pos _ (by exact hcm)]

/-- Witness for C7 at a snippet matching both a `Content Modelling` and an
`Entries` pattern. -/
theorem C7_classifier_priority_witness :
    identifyHealthCheckSection (lc "content modelling entries") = lc "Content Modelling" :=
  C7_classifier_priority.2.2 (lc "content modelling entries") (by decide) (by decide)

set_option maxRecDepth 100000 in
/-- C8 (amended to nonzero `performedChecks`): whenever `performedChecks`
is present and nonzero and the counted breakdown sums to zero or exceeds
`2 × performedChecks`, the estimate replaces each category that is not
already truthy with `round(0.40 p)`, `round(0.38 p)`, `round(0.22 p)`
respectively; for `performedChecks = 50` with no extractable counts this
gives `strengths = 20`, `areasOfOpportunities = 19`, `actionsRequired = 11`. -/
theorem C8_estimate_fallback :
    (∀ (m : HealthCheckMetrics) (p : Nat), m.performedChecks = some p → p ≠ 0 →
      (m.actionsRequired.getD 0 + m.areasOfOpportunities.getD 0 + m.strengths.getD 0 = 0 ∨
       p * 2 < m.actionsRequired.getD 0 + m.areasOfOpportunities.getD 0 + m.strengths.getD 0) →
      applyEstimate m = { m with
        strengths := if truthyN m.strengths then m.strengths else some (roundPct p 40),
        areasOfOpportunities :=
          if truthyN m.areasOfOpportunities then m.areasOfOpportunities
          else some (roundPct p 38),
        actionsRequired :=
          if truthyN m.actionsRequired then m.actionsRequired
          else some (roundPct p 22) }) ∧
    roundPct 50 40 = 20 ∧ roundPct 50 38 = 19 ∧ roundPct 50 22 = 11 ∧
    extractHealthCheckMetrics (lc "50\nPerformed Checks") =
      { emptyMetrics with
        performedChecks := some 50
        strengths := some 20
        areasOfOpportunities := some 19
        actionsRequired := some 11 } := by
  refine ⟨?_, by decide, by decide, by decide, by decide⟩
  intro m p hm hp hcond
  simp only [applyEstimate, hm]
  rw [if_pos hp, if_pos hcond]

/-- Witness for C8's estimate rule at a metrics record with
`performedChecks = 10` and an empty breakdown. -/
theorem C8_estimate_fallback_witness :
    applyEstimate { emptyMetrics with performedChecks := some 10 } =
      { emptyMetrics with
        performedChecks := some 10
        strengths := some (roundPct 10 40)
        areasOfOpportunities := some (roundPct 10 38)
        actionsRequired := some (roundPct 10 22) } :=
  C8_estimate_fallback.1 { emptyMetrics with performedChecks := some 10 } 10 rfl
    (by decide) (by decide)

/-- Trimming never lengthens a string. -/
theorem jsTrim_length_le (l : List Char) : (jsTrim l).length ≤ l.length := by
  unfold jsTrim
  calc ((l.dropWhile isJsWs).reverse.dropWhile isJsWs).reverse.length
      = ((l.dropWhile isJsWs).reverse.dropWhile isJsWs).length := List.length_reverse _
    _ ≤ (l.dropWhile isJsWs).reverse.length := dropWhileLenLe _ _
    _ = (l.dropWhile isJsWs).length := List.length_reverse _
    _ ≤ l.length := dropWhileLenLe _ _

/-- A successful `lastIndexOf` of a non-empty needle is a position strictly
inside the haystack. -/
theorem lastIndexOfSub_lt (needle hay : List Char) (hne : needle ≠ [])
    (i : Nat) (h : lastIndexOfSub needle hay = some i) : i < hay.length := by
  unfold lastIndexOfSub at h
  have hmem := List.mem_of_mem_getLast? h
  rw [List.mem_filter] at hmem
  have hpre : needle <+: hay.drop i := by
    rw [← List.isPrefixOf_iff_prefix]
    exact hmem.2
  have hlen : needle.length ≤ (hay.drop i).length := hpre.length_le
  rw [List.length_drop] at hlen
  have : 1 ≤ needle.length := by
    cases needle with
    | nil => exact absurd rfl hne
    | cons a t => simp
  omega

/-- The window end chosen by `chunkEndAt` never exceeds
`start + maxSize`. -/
theorem chunkEndAt_le (text : List Char) (maxSize start : Nat) :
    chunkEndAt text maxSize start ≤ start + maxSize := by
  simp only [chunkEndAt]
  split
  case isFalse => exact min_le_left _ _
  case isTrue hlt =>
    split
    case h_2 => exact min_le_left _ _
    case h_1 b hb =>
      split
      case isFalse => exact min_le_left _ _
      case isTrue hbpos =>
        have hmem : b ∈ (([toJsIdx (lastIndexOfSub (lc "\n\n")
              ((text.drop start).take (min (start + maxSize) text.length - start))),
            toJsIdx (lastIndexOfSub (lc ". ")
              ((text.drop start).take (min (start + maxSize) text.length - start))),
            toJsIdx (lastIndexOfSub (lc "\n")
              ((text.drop start).take (min (start + maxSize) text.length - start))),
            toJsIdx (lastIndexOfSub (lc ", ")
              ((text.drop start).take (min (start + maxSize) text.length - start)))] :
            List Int).filter (fun b => 3 * b > (maxSize : Int))) :=
          List.max?_mem (fun a b => max_choice a b) hb
        rw [List.mem_filter] at hmem
        have harea :
            ((text.drop start).take (min (start + maxSize) text.length - start)).length
              ≤ maxSize := by
          have h1 := List.length_take_le (min (start + maxSize) text.length - start)
            (text.drop start)
          have h2 : min (start + maxSize) text.length ≤ start + maxSize := min_le_left _ _
          omega
        have hIdx : ∀ (needle : List Char), needle ≠ [] →
            b = toJsIdx (lastIndexOfSub needle
              ((text.drop start).take (min (start + maxSize) text.length - start))) →
            b.toNat < maxSize := by
          intro needle hne hbeq
          match hli : lastIndexOfSub needle
              ((text.drop start).take (min (start + maxSize) text.length - start)) with
          | none => rw [hli] at hbeq; simp [toJsIdx] at hbeq; omega
          | some j =>
            rw [hli] at hbeq
            simp only [toJsIdx] at hbeq
            have := lastIndexOfSub_lt needle _ hne j hli
            omega
        have hb4 := hmem.1
        simp only [List.mem_cons, List.mem_singleton] at hb4
        rcases hb4 with hbeq | hbeq | hbeq | hbeq | hf
        · have := hIdx (lc "\n\n") (by decide) hbeq; omega
        · have := hIdx (lc ". ") (by decide) hbeq; omega
        · have := hIdx (lc "\n") (by decide) hbeq; omega
        · have := hIdx (lc ", ") (by decide) hbeq; omega
        · simp at hf

/-- Every chunk produced by the generic oversized-section split carries the
section's label and has trimmed content of more than 20 and at most
`maxSize` characters. -/
theorem splitLargeSectionAuxF_spec (text sectionName : List Char) (maxSize overlap : Nat)
    (sci gci : Nat) :
    ∀ (fuel start cc : Nat) (c : DocumentChunk),
      c ∈ splitLargeSectionAuxF text sectionName maxSize overlap sci gci fuel start cc →
      c.sectionLabel = sectionName ∧ 20 < c.content.length ∧ c.content.length ≤ maxSize := by
  intro fuel
  induction fuel with
  | zero => intro start cc c hc; simp [splitLargeSectionAuxF] at hc
  | succ fuel ih =>
    intro start cc c hc
    simp only [splitLargeSectionAuxF] at hc
    split at hc
    case isFalse => simp at hc
    case isTrue hstart =>
      have hemit : ∀ (d : DocumentChunk),
          d ∈ (if jsTrim ((text.drop start).take (chunkEndAt text maxSize start - start)) ≠ [] ∧
                20 < (jsTrim ((text.drop start).take (chunkEndAt text maxSize start - start))).length then
              [(⟨jsTrim ((text.drop start).take (chunkEndAt text maxSize start - start)),
                 sectionName, sci + cc, gci + start, gci + chunkEndAt text maxSize start⟩ :
                 DocumentChunk)]
            else []) →
          d.sectionLabel = sectionName ∧ 20 < d.content.length ∧ d.content.length ≤ maxSize := by
        intro d hd
        split at hd
        case isFalse => simp at hd
        case isTrue hcond =>
          simp only [List.mem_singleton] at hd
          subst hd
          dsimp only
          refine ⟨rfl, hcond.2, ?_⟩
          have h1 : (jsTrim ((text.drop start).take (chunkEndAt text maxSize start - start))).length
              ≤ ((text.drop start).take (chunkEndAt text maxSize start - start)).length :=
            jsTrim_length_le _
          have h2 := List.length_take_le (chunkEndAt text maxSize start - start) (text.drop start)
          have h3 := chunkEndAt_le text maxSize start
          omega
      split at hc
      case isTrue hadv =>
        rcases List.mem_append.1 hc with h | h
        · exact hemit c h
        · exact ih _ _ c h
      case isFalse hadv =>
        exact hemit c hc

/-- A label extended with `" - Table Data"` carries the table suffix. -/
theorem hasTableSuffix_append (x : List Char) :
    hasTableSuffix (x ++ lc " - Table Data") = true := by
  unfold hasTableSuffix
  rw [List.isSuffixOf_iff_suffix]
  exact List.suffix_append x _

/-- The classifier's labels never carry the table suffix. -/
theorem identify_no_suffix (s : List Char) :
    hasTableSuffix (identifyHealthCheckSection s) = false := by
  have hall : ∀ lp ∈ sectionPatterns, hasTableSuffix lp.1 = false := by decide
  simp only [identifyHealthCheckSection]
  cases hf : sectionPatterns.find?
      (fun lp => lp.2.any (fun p => reTest p (sectionWindow s))) with
  | some lp => exact hall lp (List.mem_of_find?_eq_some hf)
  | none => decide

/-- Every chunk produced by `splitTableStep`'s fold and final flush keeps
the table-data label. -/
theorem splitTableStep_label (maxSize : Nat) (sectionName header : List Char) :
    ∀ (lines : List (List Char)) (acc : List DocumentChunk × List Char × Nat × Nat),
      (∀ c ∈ acc.1, c.sectionLabel = sectionName ++ lc " - Table Data") →
      ∀ c ∈ (lines.foldl (splitTableStep maxSize sectionName header) acc).1,
        c.sectionLabel = sectionName ++ lc " - Table Data" := by
  intro lines
  induction lines with
  | nil => intro acc hacc c hc; exact hacc c hc
  | cons line rest ih =>
    intro acc hacc c hc
    rw [List.foldl_cons] at hc
    refine ih _ ?_ c hc
    intro d hd
    simp only [splitTableStep] at hd
    split at hd
    case isTrue =>
      rcases List.mem_append.1 hd with h | h
      · exact hacc d h
      · simp only [List.mem_singleton] at h; subst h; rfl
    case isFalse => exact hacc d hd

/-- Every chunk returned by `splitTableContent` is labeled with the
`" - Table Data"` suffix. -/
theorem splitTableContent_label (tableContent : List Char) (maxSize : Nat)
    (sectionName : List Char) (startIndex startChar : Nat) :
    ∀ c ∈ splitTableContent tableContent maxSize sectionName startIndex startChar,
      c.sectionLabel = sectionName ++ lc " - Table Data" := by
  intro c hc
  simp only [splitTableContent] at hc
  split at hc
  case isTrue =>
    rcases List.mem_append.1 hc with h | h
    · exact splitTableStep_label maxSize sectionName _ _ _ (by simp) c h
    · simp only [List.mem_singleton] at h; subst h; rfl
  case isFalse =>
    exact splitTableStep_label maxSize sectionName _ _ _ (by simp) c hc

/-- Loop-body invariant for C5: every chunk `processSection` appends either
has content of at least 20 characters or carries the table-data suffix. -/
theorem processSection_min20 (max' ov : Nat) (acc : ChunkAcc) (sect : List Char)
    (hacc : ∀ c ∈ acc.chunks, 20 ≤ c.content.length ∨ hasTableSuffix c.sectionLabel = true) :
    ∀ c ∈ (processSection max' ov acc sect).chunks,
      20 ≤ c.content.length ∨ hasTableSuffix c.sectionLabel = true := by
  intro c hc
  simp only [processSection] at hc
  split at hc
  case isTrue => exact hacc c hc
  case isFalse hlen =>
    split at hc
    case isTrue hsmall =>
      dsimp only at hc
      rcases List.mem_append.1 hc with h | h
      · exact hacc c h
      · simp only [List.mem_singleton] at h
        subst h
        left
        dsimp only
        omega
    case isFalse hbig =>
      split at hc
      case isTrue htab =>
        split at hc
        case h_1 idx hidx =>
          split at hc
          case isTrue hidx0 =>
            split at hc
            case isTrue htc =>
              split at hc
              case isTrue htc2 =>
                dsimp only at hc
                split at hc
                case isTrue hbt =>
                  dsimp only at hc
                  rcases List.mem_append.1 hc with h | h
                  · rcases List.mem_append.1 h with h2 | h2
                    · exact hacc c h2
                    · simp only [List.mem_singleton] at h2
                      subst h2
                      left
                      dsimp only
                      omega
                  · right
                    rw [splitTableContent_label _ _ _ _ _ c h]
                    exact hasTableSuffix_append _
                case isFalse hbt =>
                  rcases List.mem_append.1 hc with h | h
                  · exact hacc c h
                  · right
                    rw [splitTableContent_label _ _ _ _ _ c h]
                    exact hasTableSuffix_append _
              case isFalse htc2 =>
                dsimp only at hc
                split at hc
                case isTrue hbt =>
                  dsimp only at hc
                  rcases List.mem_append.1 hc with h | h
                  · rcases List.mem_append.1 h with h2 | h2
                    · exact hacc c h2
                    · simp only [List.mem_singleton] at h2
                      subst h2
                      left
                      dsimp only
                      omega
                  · simp only [List.mem_singleton] at h
                    subst h
                    right
                    exact hasTableSuffix_append _
                case isFalse hbt =>
                  rcases List.mem_append.1 hc with h | h
                  · exact hacc c h
                  · simp only [List.mem_singleton] at h
                    subst h
                    right
                    exact hasTableSuffix_append _
            case isFalse htc =>
              dsimp only at hc
              split at hc
              case isTrue hbt =>
                dsimp only at hc
                rcases List.mem_append.1 hc with h | h
                · exact hacc c h
                · simp only [List.mem_singleton] at h
                  subst h
                  left
                  dsimp only
                  omega
              case isFalse hbt => exact hacc c hc
          case isFalse hidx0 =>
            dsimp only at hc
            rcases List.mem_append.1 hc with h | h
            · exact hacc c h
            · left
              have := splitLargeSectionAuxF_spec _ _ _ _ _ _ _ _ _ c h
              omega
        case h_2 =>
          dsimp only at hc
          rcases List.mem_append.1 hc with h | h
          · exact hacc c h
          · left
            have := splitLargeSectionAuxF_spec _ _ _ _ _ _ _ _ _ c h
            omega
      case isFalse htab =>
        dsimp only at hc
        rcases List.mem_append.1 hc with h | h
        · exact hacc c h
        · left
          have := splitLargeSectionAuxF_spec _ _ _ _ _ _ _ _ _ c h
          omega

/-- The C5 invariant carried over the whole section loop. -/
theorem foldl_min20 (max' ov : Nat) :
    ∀ (sections : List (List Char)) (acc : ChunkAcc),
      (∀ c ∈ acc.chunks, 20 ≤ c.content.length ∨ hasTableSuffix c.sectionLabel = true) →
      ∀ c ∈ (sections.foldl (processSection max' ov) acc).chunks,
        20 ≤ c.content.length ∨ hasTableSuffix c.sectionLabel = true := by
  intro sections
  induction sections with
  | nil => intro acc hacc; exact hacc
  | cons s rest ih =>
    intro acc hacc
    rw [List.foldl_cons]
    exact ih _ (processSection_min20 max' ov acc s hacc)

/-- C5 (amended): in every chunking output, every chunk either has content
of at least 20 characters, or carries the `" - Table Data"` suffix (table
bodies and their sub-chunks are only guaranteed non-empty — see the
counterexample), or the output is the single fallback chunk. -/
theorem C5_min_chunk_length (text : List Char) (maxChunkSize overlap : Nat) :
    (((createHealthCheckChunks text maxChunkSize overlap).all
        (fun c => decide (20 ≤ c.content.length) || hasTableSuffix c.sectionLabel)) ||
      (createHealthCheckChunks text maxChunkSize overlap ==
        [fallbackChunkOf text maxChunkSize])) = true := by
  unfold createHealthCheckChunks
  split
  case isTrue => simp
  case isFalse =>
    split
    case isTrue => simp
    case isFalse =>
      apply Bool.or_eq_true_iff.2
      left
      rw [List.all_eq_true]
      intro c hc
      have := foldl_min20 maxChunkSize overlap (sectionsOf text) (ChunkAcc.mk [] 0 0)
        (by simp) c hc
      rcases this with h | h
      · simp [h]
      · simp [h]

set_option maxRecDepth 100000 in
/-- C5 counterexample: at `tableEdgeInput` with `maxChunkSize = 40` the
output has two chunks and is not the fallback, yet the table-data chunk's
content (`"Displaying 7"`) has only 12 < 20 characters. -/
theorem C5_counterexample_short_table_chunk :
    (createHealthCheckChunks tableEdgeInput 40 10).map (fun c => c.content.length) = [56, 12] ∧
    ((createHealthCheckChunks tableEdgeInput 40 10).any
      (fun c => decide (c.content.length < 20))) = true ∧
    2 ≤ (createHealthCheckChunks tableEdgeInput 40 10).length := by decide

set_option maxRecDepth 100000 in
/-- C4 counterexample: at `tableEdgeInput` with `maxChunkSize = 40` the
before-table chunk keeps its whole 56-character content under a plain
(unsuffixed) section label, exceeding `maxChunkSize`. -/
theorem C4_counterexample_oversized_before_table :
    ((createHealthCheckChunks tableEdgeInput 40 10).any
      (fun c => !hasTableSuffix c.sectionLabel && decide (40 < c.content.length))) = true := by
  decide

/-- Loop-body invariant for C4: when a section is small or not
table-flagged, every appended chunk is unsuffixed and within
`maxChunkSize`. -/
theorem processSection_sized (max' ov : Nat) (acc : ChunkAcc) (sect : List Char)
    (hsect : (jsTrim sect).length ≤ max' ∨ containsTable (jsTrim sect) = false)
    (hacc : ∀ c ∈ acc.chunks,
      hasTableSuffix c.sectionLabel = false ∧ c.content.length ≤ max') :
    ∀ c ∈ (processSection max' ov acc sect).chunks,
      hasTableSuffix c.sectionLabel = false ∧ c.content.length ≤ max' := by
  intro c hc
  simp only [processSection] at hc
  split at hc
  case isTrue => exact hacc c hc
  case isFalse hlen =>
    split at hc
    case isTrue hsmall =>
      dsimp only at hc
      rcases List.mem_append.1 hc with h | h
      · exact hacc c h
      · simp only [List.mem_singleton] at h
        subst h
        exact ⟨identify_no_suffix _, hsmall⟩
    case isFalse hbig =>
      have htabf : containsTable (jsTrim sect) = false := by
        rcases hsect with h | h
        · omega
        · exact h
      split at hc
      case isTrue htab => rw [htabf] at htab; exact absurd htab (by simp)
      case isFalse htab =>
        dsimp only at hc
        rcases List.mem_append.1 hc with h | h
        · exact hacc c h
        · have hs := splitLargeSectionAuxF_spec _ _ _ _ _ _ _ _ _ c h
          refine ⟨?_, hs.2.2⟩
          rw [hs.1]
          exact identify_no_suffix _

/-- The C4 invariant carried over the whole section loop. -/
theorem foldl_sized (max' ov : Nat) :
    ∀ (sections : List (List Char)),
      (∀ s ∈ sections, (jsTrim s).length ≤ max' ∨ containsTable (jsTrim s) = false) →
      ∀ (acc : ChunkAcc),
      (∀ c ∈ acc.chunks,
        hasTableSuffix c.sectionLabel = false ∧ c.content.length ≤ max') →
      ∀ c ∈ (sections.foldl (processSection max' ov) acc).chunks,
        hasTableSuffix c.sectionLabel = false ∧ c.content.length ≤ max' := by
  intro sections
  induction sections with
  | nil => intro _ acc hacc; exact hacc
  | cons s rest ih =>
    intro hsec acc hacc
    rw [List.foldl_cons]
    exact ih (fun t ht => hsec t (List.mem_cons_of_mem s ht)) _
      (processSection_sized max' ov acc s (hsec s (List.mem_cons_self s rest)) hacc)

/-- C4 (amended): when no segment of the input's segmentation is both
oversized and table-flagged — i.e. away from the table path, whose
before-table chunk is unbounded (see the counterexample) and whose
sub-split table chunks are bounded only by header and line lengths —
every emitted chunk is unsuffixed with content at most `maxChunkSize`,
except the single fallback chunk, which is unsuffixed with content at
most `2 × maxChunkSize`. -/
theorem C4_size_bound (text : List Char) (maxChunkSize overlap : Nat)
    (H : ∀ s ∈ sectionsOf text,
      (jsTrim s).length ≤ maxChunkSize ∨ containsTable (jsTrim s) = false) :
    ∀ c ∈ createHealthCheckChunks text maxChunkSize overlap,
      hasTableSuffix c.sectionLabel = false ∧
      (c.content.length ≤ maxChunkSize ∨
        (c.content.length ≤ 2 * maxChunkSize ∧
          createHealthCheckChunks text maxChunkSize overlap =
            [fallbackChunkOf text maxChunkSize])) := by
  intro c hc
  unfold createHealthCheckChunks at hc ⊢
  split at hc
  case isTrue => simp at hc
  case isFalse hblank =>
    split at hc
    case isTrue hfb =>
      simp only [List.mem_singleton] at hc
      subst hc
      constructor
      · simp [fallbackChunkOf, hasTableSuffix, lc, List.isSuffixOf_iff_suffix]
        decide
      · right
        constructor
        · have := List.length_take_le (maxChunkSize * 2) (jsTrim text)
          simp only [fallbackChunkOf]
          omega
        · rw [if_neg hblank, if_pos hfb]
    case isFalse hfb =>
      have := foldl_sized maxChunkSize overlap (sectionsOf text) H (ChunkAcc.mk [] 0 0)
        (by simp) c hc
      exact ⟨this.1, Or.inl this.2⟩

set_option maxRecDepth 1000000 in
/-- Witness for C4 at the scenario input, whose segments all fit within
the default `maxChunkSize`. -/
theorem C4_size_bound_witness :
    (∀ s ∈ sectionsOf scenarioInput,
      (jsTrim s).length ≤ 1500 ∨ containsTable (jsTrim s) = false) ∧
    ∀ c ∈ createHealthCheckChunks scenarioInput 1500 200,
      hasTableSuffix c.sectionLabel = false ∧
      (c.content.length ≤ 1500 ∨
        (c.content.length ≤ 2 * 1500 ∧
          createHealthCheckChunks scenarioInput 1500 200 =
            [fallbackChunkOf scenarioInput 1500])) :=
  ⟨by decide, C4_size_bound scenarioInput 1500 200 (by decide)⟩

/-- `dropWhile` is idempotent. -/
theorem dropWhile_dropWhile (p : Char → Bool) (l : List Char) :
    (l.dropWhile p).dropWhile p = l.dropWhile p := by
  induction l with
  | nil => simp
  | cons c t ih =>
    by_cases h : p c
    · simp [List.dropWhile_cons, h, ih]
    · simp [List.dropWhile_cons, h]

/-- The head surviving `dropWhile` falsifies the predicate. -/
theorem dropWhile_head_false (p : Char → Bool) (l : List Char) (c : Char) (t : List Char)
    (h : l.dropWhile p = c :: t) : p c = false := by
  induction l with
  | nil => simp at h
  | cons a l' ih =>
    by_cases ha : p a
    · rw [List.dropWhile_cons, if_pos ha] at h
      exact ih h
    · rw [List.dropWhile_cons, if_neg ha] at h
      cases h
      simpa using ha

/-- A list whose head falsifies the predicate is fixed by `dropWhile`. -/
theorem dropWhile_eq_self_of_head (p : Char → Bool) (l : List Char)
    (h : ∀ c t, l = c :: t → p c = false) : l.dropWhile p = l := by
  cases l with
  | nil => simp
  | cons c t => rw [List.dropWhile_cons, if_neg (by simp [h c t rfl])]

/-- The trimmed string is a prefix of the start-trimmed string. -/
theorem jsTrim_prefix_dropWhile (l : List Char) :
    jsTrim l <+: l.dropWhile isJsWs := by
  unfold jsTrim
  have h : (l.dropWhile isJsWs).reverse.dropWhile isJsWs <:+ (l.dropWhile isJsWs).reverse :=
    List.dropWhile_suffix isJsWs
  have h2 := List.reverse_prefix.2 h
  rwa [List.reverse_reverse] at h2

/-- The trimmed string is an infix of the original. -/
theorem jsTrim_sub (l : List Char) : jsTrim l <:+: l :=
  (jsTrim_prefix_dropWhile l).isInfix.trans (List.dropWhile_suffix isJsWs).isInfix

/-- Characters of the trimmed string come from the original. -/
theorem mem_jsTrim (l : List Char) (c : Char) (h : c ∈ jsTrim l) : c ∈ l :=
  (jsTrim_sub l).subset h

/-- A non-empty trimmed string starts with a non-whitespace character. -/
theorem jsTrim_head_false (l : List Char) (c : Char) (t : List Char)
    (h : jsTrim l = c :: t) : isJsWs c = false := by
  have hpre := jsTrim_prefix_dropWhile l
  rw [h] at hpre
  obtain ⟨t', ht'⟩ := hpre
  exact dropWhile_head_false isJsWs l c _ ht'.symm

/-- A non-empty trimmed string ends with a non-whitespace character. -/
theorem jsTrim_getLast_false (l : List Char) (c : Char)
    (h : (jsTrim l).getLast? = some c) : isJsWs c = false := by
  unfold jsTrim at h
  rw [← List.head?_reverse, List.reverse_reverse] at h
  match hd : ((l.dropWhile isJsWs).reverse).dropWhile isJsWs, h2 : h with
  | [], _ => rw [hd] at h; simp at h
  | d :: t, _ =>
    rw [hd] at h
    simp only [List.head?_cons, Option.some_inj] at h
    subst h
    exact dropWhile_head_false isJsWs _ _ _ hd

/-- `jsTrim` is idempotent. -/
theorem jsTrim_idem (l : List Char) : jsTrim (jsTrim l) = jsTrim l := by
  have h1 : (jsTrim l).dropWhile isJsWs = jsTrim l :=
    dropWhile_eq_self_of_head _ _ (fun c t hct => jsTrim_head_false l c t hct)
  show jsTrim (jsTrim l) = jsTrim l
  unfold jsTrim
  rw [show ((((l.dropWhile isJsWs).reverse.dropWhile isJsWs).reverse : List Char).dropWhile isJsWs)
      = ((l.dropWhile isJsWs).reverse.dropWhile isJsWs).reverse from h1]
  rw [List.reverse_reverse]
  rw [dropWhile_dropWhile]

/-- The trimmed string has non-whitespace edges. -/
theorem lineOk_jsTrim (l : List Char) : lineOk (jsTrim l) = true := by
  cases hj : jsTrim l with
  | nil => decide
  | cons c t =>
    have hh := jsTrim_head_false l c t hj
    have hlast : (c :: t).getLast? = some ((c :: t).getLast (by simp)) :=
      List.getLast?_eq_getLast _ _
    have hl2 : isJsWs ((c :: t).getLast (by simp)) = false := by
      apply jsTrim_getLast_false l
      rw [hj, hlast]
    unfold lineOk
    simp only [List.head?_cons, hlast, hh, hl2]
    simp

/-- `jsTrim` fixes exactly the strings with non-whitespace edges. -/
theorem jsTrim_eq_self_iff_lineOk (l : List Char) : jsTrim l = l ↔ lineOk l = true := by
  constructor
  · intro h
    rw [← h]
    exact lineOk_jsTrim l
  · intro h
    unfold lineOk at h
    rw [Bool.and_eq_true] at h
    have h1 : l.dropWhile isJsWs = l := by
      apply dropWhile_eq_self_of_head
      intro c t hct
      have := h.1
      rw [hct] at this
      simpa using this
    have h2 : l.reverse.dropWhile isJsWs = l.reverse := by
      apply dropWhile_eq_self_of_head
      intro c t hct
      have hrev : l.reverse.head? = some c := by rw [hct]; rfl
      rw [List.head?_reverse] at hrev
      have := h.2
      rw [hrev] at this
      simpa using this
    unfold jsTrim
    rw [h1, h2, List.reverse_reverse]


/-- `splitNLAux` never returns the empty list of lines. -/
theorem splitNLAux_ne_nil (s : List Char) : ∀ cur, splitNLAux cur s ≠ [] := by
  induction s with
  | nil => intro cur; simp [splitNLAux]
  | cons c rest ih =>
    intro cur
    simp only [splitNLAux]
    split
    · simp
    · exact ih _

/-- Joining the split lines restores the string. -/
theorem joinNL_splitNLAux (s : List Char) : ∀ cur, joinNL (splitNLAux cur s) = cur.reverse ++ s := by
  induction s with
  | nil => intro cur; simp [splitNLAux, joinNL]
  | cons c rest ih =>
    intro cur
    simp only [splitNLAux]
    split
    case isTrue hc =>
      subst hc
      obtain ⟨z, zs, hz⟩ := List.exists_cons_of_ne_nil (splitNLAux_ne_nil rest [])
      rw [hz]
      show joinNL (cur.reverse :: z :: zs) = cur.reverse ++ '\n' :: rest
      rw [show joinNL (cur.reverse :: z :: zs) = cur.reverse ++ '\n' :: joinNL (z :: zs) from rfl]
      rw [← hz, ih []]
      simp
    case isFalse hc =>
      rw [ih (c :: cur)]
      simp

/-- Joining the split lines restores the string. -/
theorem joinNL_splitNL (l : List Char) : joinNL (splitNL l) = l := by
  unfold splitNL
  rw [joinNL_splitNLAux]
  simp

/-- Lines produced by the split contain no newline. -/
theorem splitNL_no_nl (s : List Char) :
    ∀ cur, '\n' ∉ cur → ∀ line ∈ splitNLAux cur s, '\n' ∉ line := by
  induction s with
  | nil =>
    intro cur hcur line hline
    simp only [splitNLAux, List.mem_singleton] at hline
    subst hline
    simpa using hcur
  | cons c rest ih =>
    intro cur hcur line hline
    simp only [splitNLAux] at hline
    split at hline
    case isTrue hc =>
      rcases List.mem_cons.1 hline with h | h
      · subst h; simpa using hcur
      · exact ih [] (by simp) line h
    case isFalse hc =>
      exact ih (c :: cur) (by
        intro hmem
        rcases List.mem_cons.1 hmem with h | h
        · exact hc h.symm
        · exact hcur h) line hline

/-- Splitting a newline-free string yields that single line. -/
theorem splitNLAux_no_nl (l : List Char) (hl : '\n' ∉ l) :
    ∀ cur, splitNLAux cur l = [cur.reverse ++ l] := by
  induction l with
  | nil => intro cur; simp [splitNLAux]
  | cons c rest ih =>
    intro cur
    simp only [splitNLAux]
    rw [if_neg (by intro h; exact hl (h ▸ List.mem_cons_self c rest))]
    rw [ih (fun h => hl (List.mem_cons_of_mem c h)) (c :: cur)]
    simp

/-- Splitting a string built from a newline-free line, a newline and a
remainder peels off exactly that line. -/
theorem splitNLAux_append (l : List Char) (hl : '\n' ∉ l) (s : List Char) :
    ∀ cur, splitNLAux cur (l ++ '\n' :: s) = (cur.reverse ++ l) :: splitNLAux [] s := by
  induction l with
  | nil =>
    intro cur
    show splitNLAux cur ('\n' :: s) = (cur.reverse ++ []) :: splitNLAux [] s
    simp [splitNLAux]
  | cons c rest ih =>
    intro cur
    show splitNLAux cur (c :: (rest ++ '\n' :: s)) =
      (cur.reverse ++ c :: rest) :: splitNLAux [] s
    simp only [splitNLAux]
    rw [if_neg (by intro h; exact hl (h ▸ List.mem_cons_self c rest))]
    rw [ih (fun h => hl (List.mem_cons_of_mem c h)) (c :: cur)]
    simp

/-- Splitting the join of newline-free lines restores them. -/
theorem splitNL_joinNL (M : List (List Char)) (hM : M ≠ [])
    (hnl : ∀ l ∈ M, '\n' ∉ l) : splitNL (joinNL M) = M := by
  induction M with
  | nil => exact absurd rfl hM
  | cons l M' ih =>
    cases M' with
    | nil =>
      show splitNL (joinNL [l]) = [l]
      unfold splitNL
      rw [show joinNL [l] = l from rfl]
      rw [splitNLAux_no_nl l (hnl l (by simp)) []]
      simp
    | cons m ms =>
      show splitNL (joinNL (l :: m :: ms)) = l :: m :: ms
      unfold splitNL
      rw [show joinNL (l :: m :: ms) = l ++ '\n' :: joinNL (m :: ms) from rfl]
      rw [splitNLAux_append l (hnl l (by simp)) _ []]
      simp only [List.reverse_nil, List.nil_append, List.cons.injEq, true_and]
      have := ih (by simp) (fun x hx => hnl x (List.mem_cons_of_mem l hx))
      unfold splitNL at this
      exact this

/-- Every line of the split is an infix of the string. -/
theorem splitNL_sub (s : List Char) :
    ∀ cur line, line ∈ splitNLAux cur s → line <:+: cur.reverse ++ s := by
  induction s with
  | nil =>
    intro cur line hline
    simp only [splitNLAux, List.mem_singleton] at hline
    subst hline
    simp
  | cons c rest ih =>
    intro cur line hline
    simp only [splitNLAux] at hline
    split at hline
    case isTrue hc =>
      subst hc
      rcases List.mem_cons.1 hline with h | h
      · subst h
        exact ⟨[], '\n' :: rest, by simp⟩
      · have := ih [] line h
        simp only [List.reverse_nil, List.nil_append] at this
        exact this.trans ⟨cur.reverse ++ ['\n'], [], by simp⟩
    case isFalse hc =>
      have := ih (c :: cur) line hline
      simpa using this


/-- `wsFlat` is inherited by the tail. -/
theorem wsFlat_tail (c : Char) (l : List Char) (h : wsFlat (c :: l) = true) :
    wsFlat l = true := by
  cases l with
  | nil => rfl
  | cons d rest =>
    rw [show wsFlat (c :: d :: rest)
        = (((!isWsNoNL c || c == ' ') && !(isWsNoNL c && isWsNoNL d)) && wsFlat (d :: rest))
      from rfl, Bool.and_eq_true] at h
    exact h.2

/-- The head condition of `wsFlat` on a non-empty list. -/
theorem wsFlat_head (c : Char) (l : List Char) (h : wsFlat (c :: l) = true) :
    (!isWsNoNL c || c == ' ') = true := by
  cases l with
  | nil => exact h
  | cons d rest =>
    rw [show wsFlat (c :: d :: rest)
        = (((!isWsNoNL c || c == ' ') && !(isWsNoNL c && isWsNoNL d)) && wsFlat (d :: rest))
      from rfl, Bool.and_eq_true, Bool.and_eq_true] at h
    exact h.1.1

/-- The adjacency condition of `wsFlat` on a two-or-more list. -/
theorem wsFlat_pair (c d : Char) (l : List Char) (h : wsFlat (c :: d :: l) = true) :
    (!(isWsNoNL c && isWsNoNL d)) = true := by
  rw [show wsFlat (c :: d :: l)
      = (((!isWsNoNL c || c == ' ') && !(isWsNoNL c && isWsNoNL d)) && wsFlat (d :: l))
    from rfl, Bool.and_eq_true, Bool.and_eq_true] at h
  exact h.1.2

/-- Rebuild `wsFlat` from its three components. -/
theorem wsFlat_cons_cons (c d : Char) (l : List Char)
    (h1 : (!isWsNoNL c || c == ' ') = true)
    (h2 : (!(isWsNoNL c && isWsNoNL d)) = true)
    (h3 : wsFlat (d :: l) = true) : wsFlat (c :: d :: l) = true := by
  rw [show wsFlat (c :: d :: l)
      = (((!isWsNoNL c || c == ' ') && !(isWsNoNL c && isWsNoNL d)) && wsFlat (d :: l))
    from rfl]
  rw [h1, h2, h3]
  rfl

/-- A non-whitespace head preserves `wsFlat`. -/
theorem wsFlat_cons_of_not_ws (c : Char) (l : List Char)
    (hc : isWsNoNL c = false) (h : wsFlat l = true) : wsFlat (c :: l) = true := by
  cases l with
  | nil => simp [wsFlat, hc]
  | cons d rest => exact wsFlat_cons_cons c d rest (by simp [hc]) (by simp [hc]) h

/-- `wsFlat` holds of every suffix. -/
theorem wsFlat_suffix (l₂ l₁ : List Char) (h : l₂ <:+ l₁) (hf : wsFlat l₁ = true) :
    wsFlat l₂ = true := by
  obtain ⟨pre, hpre⟩ := h
  subst hpre
  induction pre with
  | nil => simpa using hf
  | cons c pre' ih => exact ih (wsFlat_tail c _ hf)

/-- `wsFlat` holds of every prefix. -/
theorem wsFlat_prefix (l₂ l₁ : List Char) (h : l₂ <+: l₁) (hf : wsFlat l₁ = true) :
    wsFlat l₂ = true := by
  induction l₂ generalizing l₁ with
  | nil => rfl
  | cons c t ih =>
    cases l₁ with
    | nil => simp at h
    | cons a t1 =>
      obtain ⟨post, hpost⟩ := h
      simp only [List.cons_append, List.cons.injEq] at hpost
      obtain ⟨rfl, hpost2⟩ := hpost
      cases t with
      | nil =>
        cases t1 with
        | nil => exact hf
        | cons b t2 =>
          have h1 := wsFlat_head c _ hf
          simp [wsFlat, h1]
      | cons d t' =>
        cases t1 with
        | nil => simp at hpost2
        | cons b t2 =>
          have hdb : d = b := by
            have : (d :: t') ++ post = b :: t2 := hpost2
            simp only [List.cons_append, List.cons.injEq] at this
            exact this.1
          subst hdb
          refine wsFlat_cons_cons c d t' (wsFlat_head c _ hf) (wsFlat_pair c d _ hf) ?_
          exact ih (d :: t2) ⟨post, hpost2⟩ (wsFlat_tail c _ hf)

/-- `wsFlat` holds of every infix. -/
theorem wsFlat_sub (l₂ l₁ : List Char) (h : l₂ <:+: l₁) (hf : wsFlat l₁ = true) :
    wsFlat l₂ = true := by
  obtain ⟨t, hpre, hsuf⟩ := List.infix_iff_prefix_suffix.1 h
  exact wsFlat_prefix l₂ t hpre (wsFlat_suffix t l₁ hsuf hf)

/-- If the head is not whitespace, `collapseWs` keeps it in place. -/
theorem collapseWs_cons_not_ws (d : Char) (rest : List Char) (hd : isWsNoNL d = false) :
    ∃ t, collapseWs (d :: rest) = d :: t := by
  cases rest with
  | nil => exact ⟨[], by simp [collapseWs, hd]⟩
  | cons e rest' =>
    refine ⟨collapseWs (e :: rest'), ?_⟩
    show (if isWsNoNL d then
        if isWsNoNL e then collapseWs (e :: rest') else ' ' :: collapseWs (e :: rest')
      else d :: collapseWs (e :: rest')) = d :: collapseWs (e :: rest')
    rw [if_neg (by simp [hd])]

/-- The output of `collapseWs` satisfies `wsFlat`. -/
theorem collapseWs_wsFlat (l : List Char) : wsFlat (collapseWs l) = true := by
  induction l with
  | nil => rfl
  | cons c tail ih =>
    cases tail with
    | nil =>
      by_cases hc : isWsNoNL c
      · simp [collapseWs, hc, wsFlat]
      · simp [collapseWs, hc, wsFlat]
    | cons d rest =>
      show wsFlat (if isWsNoNL c then
          if isWsNoNL d then collapseWs (d :: rest) else ' ' :: collapseWs (d :: rest)
        else c :: collapseWs (d :: rest)) = true
      by_cases hc : isWsNoNL c
      · rw [if_pos hc]
        by_cases hd : isWsNoNL d
        · rw [if_pos hd]; exact ih
        · rw [if_neg hd]
          obtain ⟨t, ht⟩ := collapseWs_cons_not_ws d rest (by simp [hd])
          rw [ht]
          refine wsFlat_cons_cons ' ' d t (by simp) (by simp [hd]) ?_
          rw [← ht]; exact ih
      · rw [if_neg hc]
        exact wsFlat_cons_of_not_ws c _ (by simp [hc]) ih

/-- `wsFlat` strings are fixed by `collapseWs`. -/
theorem collapseWs_fix (l : List Char) (h : wsFlat l = true) : collapseWs l = l := by
  induction l with
  | nil => rfl
  | cons c tail ih =>
    cases tail with
    | nil =>
      have hh := wsFlat_head c [] h
      by_cases hc : isWsNoNL c
      · have : c = ' ' := by
          rcases Bool.or_eq_true_iff.1 hh with h1 | h1
          · simp [hc] at h1
          · exact eq_of_beq h1
        subst this
        simp [collapseWs]
      · simp [collapseWs, hc]
    | cons d rest =>
      show (if isWsNoNL c then
          if isWsNoNL d then collapseWs (d :: rest) else ' ' :: collapseWs (d :: rest)
        else c :: collapseWs (d :: rest)) = c :: d :: rest
      have htail := ih (wsFlat_tail c _ h)
      by_cases hc : isWsNoNL c
      · have hpair := wsFlat_pair c d rest h
        have hd : isWsNoNL d = false := by
          simp [hc] at hpair
          exact hpair
        have hcsp : c = ' ' := by
          have hh := wsFlat_head c _ h
          rcases Bool.or_eq_true_iff.1 hh with h1 | h1
          · simp [hc] at h1
          · exact eq_of_beq h1
        rw [if_pos hc, if_neg (by simp [hd]), htail, hcsp]
      · rw [if_neg hc, htail]

/-- The join of `wsFlat` lines is `wsFlat` (newlines are not counted as
non-newline whitespace). -/
theorem wsFlat_joinNL (M : List (List Char)) (hM : ∀ l ∈ M, wsFlat l = true) :
    wsFlat (joinNL M) = true := by
  induction M with
  | nil => rfl
  | cons l M' ih =>
    cases M' with
    | nil => exact hM l (by simp)
    | cons m ms =>
      rw [show joinNL (l :: m :: ms) = l ++ '\n' :: joinNL (m :: ms) from rfl]
      have hrest : wsFlat ('\n' :: joinNL (m :: ms)) = true :=
        wsFlat_cons_of_not_ws '\n' _ (by decide)
          (ih (fun x hx => hM x (List.mem_cons_of_mem l hx)))
      have hl := hM l (by simp)
      clear hM ih
      induction l with
      | nil => simpa using hrest
      | cons c t ihl =>
        cases t with
        | nil =>
          show wsFlat (c :: '\n' :: joinNL (m :: ms)) = true
          exact wsFlat_cons_cons c '\n' _ (wsFlat_head c [] hl) (by simp [isWsNoNL]) hrest
        | cons d t' =>
          show wsFlat (c :: ((d :: t') ++ '\n' :: joinNL (m :: ms))) = true
          refine wsFlat_cons_cons c d _ (wsFlat_head c _ hl) (wsFlat_pair c d _ hl) ?_
          exact ihl (wsFlat_tail c _ hl)

/-- `replUni` leaves no unicode-space variant behind. -/
theorem replUni_no_uni (l : List Char) : ∀ c ∈ replUni l, isUniSpace c = false := by
  intro c hc
  rw [replUni, List.mem_map] at hc
  obtain ⟨a, _, ha⟩ := hc
  by_cases h : isUniSpace a
  · rw [if_pos h] at ha; subst ha; decide
  · rw [if_neg h] at ha; subst ha; simpa using h

/-- A string without unicode-space variants is fixed by `replUni`. -/
theorem replUni_fix (l : List Char) (h : ∀ c ∈ l, isUniSpace c = false) :
    replUni l = l := by
  unfold replUni
  induction l with
  | nil => rfl
  | cons c t ih =>
    rw [List.map_cons, if_neg (by simp [h c (by simp)]),
      ih (fun d hd => h d (List.mem_cons_of_mem c hd))]


/-- `normNewlines` leaves no carriage return behind. -/
theorem normNewlines_no_cr (l : List Char) : '\r' ∉ normNewlines l := by
  induction l using normNewlines.induct with
  | case1 => simp [normNewlines]
  | case2 => simp [normNewlines]
  | case3 c hc => simp [normNewlines, hc]; exact fun h => hc h.symm
  | case4 rest ih => simpa [normNewlines] using ih
  | case5 d rest hd ih => simpa [normNewlines, hd] using ih
  | case6 c d rest hc ih =>
    simp [normNewlines, hc]
    exact ⟨fun h => hc h.symm, ih⟩

/-- Every character of `normNewlines`' output is an input character or a
newline. -/
theorem mem_normNewlines (l : List Char) : ∀ c ∈ normNewlines l, c ∈ l ∨ c = '\n' := by
  induction l using normNewlines.induct with
  | case1 => simp [normNewlines]
  | case2 => simp [normNewlines]
  | case3 c hc => intro e he; simp [normNewlines, hc] at he; left; simp [he]
  | case4 rest ih =>
    intro e he
    simp only [normNewlines, if_pos rfl] at he
    rcases List.mem_cons.1 he with h | h
    · right; exact h
    · rcases ih e h with h2 | h2
      · left; exact List.mem_cons_of_mem _ (List.mem_cons_of_mem _ h2)
      · right; exact h2
  | case5 d rest hd ih =>
    intro e he
    simp only [normNewlines, if_pos rfl, if_neg hd] at he
    rcases List.mem_cons.1 he with h | h
    · right; exact h
    · rcases ih e h with h2 | h2
      · left; exact List.mem_cons_of_mem _ h2
      · right; exact h2
  | case6 c d rest hc ih =>
    intro e he
    simp only [normNewlines, if_neg hc] at he
    rcases List.mem_cons.1 he with h | h
    · left; subst h; exact List.mem_cons_self _ _
    · rcases ih e h with h2 | h2
      · left; exact List.mem_cons_of_mem _ h2
      · right; exact h2

/-- A string without carriage returns is fixed by `normNewlines`. -/
theorem normNewlines_fix (l : List Char) (h : '\r' ∉ l) : normNewlines l = l := by
  induction l using normNewlines.induct with
  | case1 => rfl
  | case2 => simp at h
  | case3 c hc => simp [normNewlines, hc]
  | case4 rest ih => simp at h
  | case5 d rest hd ih => simp at h
  | case6 c d rest hc ih =>
    rw [show normNewlines (c :: d :: rest)
        = (if c = '\r' then
            if d = '\n' then '\n' :: normNewlines rest
            else '\n' :: normNewlines (d :: rest)
          else c :: normNewlines (d :: rest)) from rfl, if_neg hc,
      ih (fun hm => h (List.mem_cons_of_mem c hm))]

/-- Characters of `collapseNLF`'s output come from the input. -/
theorem mem_collapseNLF : ∀ (fuel : Nat) (l : List Char) (c : Char),
    c ∈ collapseNLF fuel l → c ∈ l := by
  intro fuel
  induction fuel with
  | zero => intro l c hc; simpa [collapseNLF] using hc
  | succ fuel ih =>
    intro l c hc
    cases l with
    | nil => simpa [collapseNLF] using hc
    | cons a rest =>
      rw [show collapseNLF (fuel + 1) (a :: rest)
          = (if a = '\n' ∧ rest.take 2 = ['\n', '\n'] then collapseNLF fuel rest
            else a :: collapseNLF fuel rest) from rfl] at hc
      split at hc
      · exact List.mem_cons_of_mem a (ih rest c hc)
      · rcases List.mem_cons.1 hc with h | h
        · subst h; exact List.mem_cons_self _ _
        · exact List.mem_cons_of_mem a (ih rest c h)

/-- A string with no three-newline run is fixed by `collapseNLF`. -/
theorem collapseNLF_fix : ∀ (fuel : Nat) (l : List Char),
    hasTripleNL l = false → collapseNLF fuel l = l := by
  intro fuel
  induction fuel with
  | zero => intro l _; rfl
  | succ fuel ih =>
    intro l hl
    cases l with
    | nil => rfl
    | cons a rest =>
      rw [show hasTripleNL (a :: rest)
          = ((a == '\n' && rest.take 2 == ['\n', '\n']) || hasTripleNL rest) from rfl] at hl
      rw [Bool.or_eq_false_iff] at hl
      rw [show collapseNLF (fuel + 1) (a :: rest)
          = (if a = '\n' ∧ rest.take 2 = ['\n', '\n'] then collapseNLF fuel rest
            else a :: collapseNLF fuel rest) from rfl]
      rw [if_neg (by
        rintro ⟨h1, h2⟩
        have := hl.1
        rw [h1, h2] at this
        simp at this)]
      rw [ih rest hl.2]

/-- Characters of `collapseWs`' output come from the input or are spaces. -/
theorem mem_collapseWs (l : List Char) : ∀ c ∈ collapseWs l, c ∈ l ∨ c = ' ' := by
  induction l using collapseWs.induct with
  | case1 => simp [collapseWs]
  | case2 c hc =>
    intro e he
    simp [collapseWs, hc] at he
    right; exact he
  | case3 c hc =>
    intro e he
    simp [collapseWs, hc] at he
    left; simp [he]
  | case4 c d rest hc hd ih =>
    intro e he
    rw [show collapseWs (c :: d :: rest)
        = (if isWsNoNL c then
            if isWsNoNL d then collapseWs (d :: rest) else ' ' :: collapseWs (d :: rest)
          else c :: collapseWs (d :: rest)) from rfl, if_pos hc, if_pos hd] at he
    rcases ih e he with h | h
    · left; exact List.mem_cons_of_mem c h
    · right; exact h
  | case5 c d rest hc hd ih =>
    intro e he
    rw [show collapseWs (c :: d :: rest)
        = (if isWsNoNL c then
            if isWsNoNL d then collapseWs (d :: rest) else ' ' :: collapseWs (d :: rest)
          else c :: collapseWs (d :: rest)) from rfl, if_pos hc, if_neg hd] at he
    rcases List.mem_cons.1 he with h | h
    · right; exact h
    · rcases ih e h with h2 | h2
      · left; exact List.mem_cons_of_mem c h2
      · right; exact h2
  | case6 c d rest hc ih =>
    intro e he
    rw [show collapseWs (c :: d :: rest)
        = (if isWsNoNL c then
            if isWsNoNL d then collapseWs (d :: rest) else ' ' :: collapseWs (d :: rest)
          else c :: collapseWs (d :: rest)) from rfl, if_neg hc] at he
    rcases List.mem_cons.1 he with h | h
    · left; subst h; exact List.mem_cons_self _ _
    · rcases ih e h with h2 | h2
      · left; exact List.mem_cons_of_mem c h2
      · right; exact h2

/-- Characters of a join come from the lines or are the separator. -/
theorem mem_joinNL (M : List (List Char)) (c : Char) (hc : c ∈ joinNL M) :
    (∃ l ∈ M, c ∈ l) ∨ c = '\n' := by
  induction M with
  | nil => simp [joinNL] at hc
  | cons l M' ih =>
    cases M' with
    | nil => left; exact ⟨l, by simp, hc⟩
    | cons m ms =>
      rw [show joinNL (l :: m :: ms) = l ++ '\n' :: joinNL (m :: ms) from rfl] at hc
      rcases List.mem_append.1 hc with h | h
      · left; exact ⟨l, by simp, h⟩
      · rcases List.mem_cons.1 h with h2 | h2
        · right; exact h2
        · rcases ih h2 with ⟨x, hx, hcx⟩ | h3
          · left; exact ⟨x, List.mem_cons_of_mem l hx, hcx⟩
          · right; exact h3

/-- A map that fixes every member fixes the list. -/
theorem map_self_of_mem {α : Type} (f : α → α) (L : List α) (h : ∀ x ∈ L, f x = x) :
    L.map f = L := by
  induction L with
  | nil => rfl
  | cons x t ih =>
    rw [List.map_cons, h x (by simp), ih (fun y hy => h y (List.mem_cons_of_mem x hy))]

/-- A string whose lines are all trim-fixed is fixed by `trimLines`. -/
theorem trimLines_fix (l : List Char) (h : ∀ line ∈ splitNL l, jsTrim line = line) :
    trimLines l = l := by
  unfold trimLines
  rw [map_self_of_mem jsTrim _ h, joinNL_splitNL]

/-- `lineOk` is reverse-invariant. -/
theorem lineOk_reverse (l : List Char) : lineOk l.reverse = lineOk l := by
  unfold lineOk
  rw [List.head?_reverse, List.getLast?_reverse]
  exact Bool.and_comm _ _

/-- Start-trimming a join of edge-clean lines only drops leading empty
lines. -/
theorem dropWhile_joinNL (M : List (List Char)) (h : ∀ l ∈ M, lineOk l = true) :
    (joinNL M).dropWhile isJsWs = joinNL (M.dropWhile List.isEmpty) := by
  induction M with
  | nil => rfl
  | cons l M' ih =>
    cases l with
    | nil =>
      cases M' with
      | nil => rfl
      | cons m ms =>
        rw [show joinNL ([] :: m :: ms) = [] ++ '\n' :: joinNL (m :: ms) from rfl]
        rw [show (([] : List Char) ++ '\n' :: joinNL (m :: ms)).dropWhile isJsWs
            = ('\n' :: joinNL (m :: ms)).dropWhile isJsWs from rfl]
        rw [List.dropWhile_cons, if_pos (by decide)]
        rw [show (([] :: m :: ms : List (List Char)).dropWhile List.isEmpty)
            = ((m :: ms : List (List Char)).dropWhile List.isEmpty) by
          rw [List.dropWhile_cons]; simp]
        exact ih (fun x hx => h x (List.mem_cons_of_mem _ hx))
    | cons c t =>
      have hc : isJsWs c = false := by
        have := h (c :: t) (by simp)
        unfold lineOk at this
        simp only [List.head?_cons, Bool.and_eq_true] at this
        simpa using this.1
      have hM : ((c :: t) :: M' : List (List Char)).dropWhile List.isEmpty
          = (c :: t) :: M' := by
        rw [List.dropWhile_cons]
        simp
      rw [hM]
      cases M' with
      | nil =>
        rw [show joinNL [c :: t] = c :: t from rfl]
        rw [List.dropWhile_cons, if_neg (by simp [hc])]
      | cons m ms =>
        rw [show joinNL ((c :: t) :: m :: ms) = (c :: t) ++ '\n' :: joinNL (m :: ms) from rfl]
        rw [show ((c :: t) ++ '\n' :: joinNL (m :: ms) : List Char)
            = c :: (t ++ '\n' :: joinNL (m :: ms)) from rfl]
        rw [List.dropWhile_cons, if_neg (by simp [hc])]

/-- `joinNL` over an appended final line. -/
theorem joinNL_append_singleton (L : List (List Char)) (hL : L ≠ []) (x : List Char) :
    joinNL (L ++ [x]) = joinNL L ++ '\n' :: x := by
  induction L with
  | nil => exact absurd rfl hL
  | cons l L' ih =>
    cases L' with
    | nil => rfl
    | cons m ms =>
      have step : joinNL ((l :: m :: ms) ++ [x]) = l ++ '\n' :: joinNL ((m :: ms) ++ [x]) :=
        rfl
      rw [step, ih (by simp)]
      rw [show joinNL (l :: m :: ms) = l ++ '\n' :: joinNL (m :: ms) from rfl]
      simp

/-- Reversing a join reverses and re-joins the reversed lines. -/
theorem joinNL_reverse (M : List (List Char)) :
    (joinNL M).reverse = joinNL ((M.map List.reverse).reverse) := by
  induction M with
  | nil => rfl
  | cons l M' ih =>
    cases M' with
    | nil => rfl
    | cons m ms =>
      rw [show joinNL (l :: m :: ms) = l ++ '\n' :: joinNL (m :: ms) from rfl]
      rw [List.reverse_append]
      rw [show ('\n' :: joinNL (m :: ms)).reverse = (joinNL (m :: ms)).reverse ++ ['\n'] by
        simp]
      rw [ih]
      rw [show ((l :: m :: ms).map List.reverse).reverse
          = (((m :: ms).map List.reverse).reverse) ++ [l.reverse] by simp]
      rw [joinNL_append_singleton _ (by simp) l.reverse]
      simp

/-- Trimming a join of edge-clean lines yields a join of a subset of the
lines. -/
theorem jsTrim_joinNL (M : List (List Char)) (h : ∀ l ∈ M, lineOk l = true) :
    ∃ M', jsTrim (joinNL M) = joinNL M' ∧ ∀ l ∈ M', l ∈ M := by
  classical
  refine ⟨((((M.dropWhile List.isEmpty).map List.reverse).reverse.dropWhile
      List.isEmpty).map List.reverse).reverse, ?_, ?_⟩
  · unfold jsTrim
    rw [dropWhile_joinNL M h]
    rw [joinNL_reverse (M.dropWhile List.isEmpty)]
    rw [dropWhile_joinNL _ (by
      intro l hl
      rw [List.mem_reverse, List.mem_map] at hl
      obtain ⟨m, hm, rfl⟩ := hl
      rw [lineOk_reverse]
      exact h m ((List.dropWhile_suffix _).subset hm))]
    rw [joinNL_reverse]
  · intro l hl
    rw [List.mem_reverse, List.mem_map] at hl
    obtain ⟨m3, hm3, rfl⟩ := hl
    have hm2 : m3 ∈ ((M.dropWhile List.isEmpty).map List.reverse).reverse :=
      (List.dropWhile_suffix _).subset hm3
    rw [List.mem_reverse, List.mem_map] at hm2
    obtain ⟨m1, hm1, rfl⟩ := hm2
    rw [List.reverse_reverse]
    exact (List.dropWhile_suffix _).subset hm1

/-- C6 (amended): `normalizeText` is idempotent on every input whose
normalized output contains no run of three or more newlines (per-line
trimming can create such a run out of whitespace-only lines — see the
counterexample — and only the newline-collapse pass, which has already run,
removes them; every other part of the normalized-text invariant holds of
every output). -/
theorem C6_idempotent_when_no_triple_newline (x : List Char)
    (h3 : hasTripleNL (normalizeText x) = false) :
    normalizeText (normalizeText x) = normalizeText x := by
  by_cases hx : x = []
  · subst hx; rfl
  by_cases hy : normalizeText x = []
  · rw [hy]; rfl
  have hydef : normalizeText x
      = jsTrim (trimLines (collapseWs (collapseNL (normNewlines (replUni x))))) := by
    unfold normalizeText
    rw [if_neg hx]
  -- character-level facts about the pre-trim stage
  have hz_wsFlat : wsFlat (collapseWs (collapseNL (normNewlines (replUni x)))) = true :=
    collapseWs_wsFlat _
  have hz_mem : ∀ c ∈ collapseWs (collapseNL (normNewlines (replUni x))),
      isUniSpace c = false ∧ c ≠ '\r' := by
    intro c hc
    rcases mem_collapseWs _ c hc with h | h
    · have h2 := mem_collapseNLF _ _ c h
      rcases mem_normNewlines _ c h2 with h3' | h3'
      · exact ⟨replUni_no_uni x c h3',
          fun hcr => normNewlines_no_cr (replUni x) (hcr ▸ h2)⟩
      · subst h3'; exact ⟨by decide, by decide⟩
    · subst h; exact ⟨by decide, by decide⟩
  -- facts about the trimmed lines
  have hM_lines : ∀ l ∈ (splitNL (collapseWs (collapseNL (normNewlines (replUni x))))).map jsTrim,
      jsTrim l = l ∧ '\n' ∉ l ∧ lineOk l = true ∧ wsFlat l = true ∧
      (∀ c ∈ l, isUniSpace c = false ∧ c ≠ '\r') := by
    intro l hl
    rw [List.mem_map] at hl
    obtain ⟨line, hline, rfl⟩ := hl
    have hifx : line <:+: collapseWs (collapseNL (normNewlines (replUni x))) := by
      have := splitNL_sub _ [] line hline
      simpa using this
    refine ⟨jsTrim_idem line, ?_, lineOk_jsTrim line, ?_, ?_⟩
    · intro hnl
      exact splitNL_no_nl _ [] (by simp) line hline (mem_jsTrim _ _ hnl)
    · exact wsFlat_sub _ _ (jsTrim_sub line) (wsFlat_sub _ _ hifx hz_wsFlat)
    · intro c hc
      exact hz_mem c (hifx.subset (mem_jsTrim _ _ hc))
  obtain ⟨M4, hM4eq, hM4mem⟩ :=
    jsTrim_joinNL ((splitNL (collapseWs (collapseNL (normNewlines (replUni x))))).map jsTrim)
      (fun l hl => (hM_lines l hl).2.2.1)
  have hyM4 : normalizeText x = joinNL M4 := by
    rw [hydef]
    exact hM4eq
  have hM4props : ∀ l ∈ M4, jsTrim l = l ∧ '\n' ∉ l ∧ lineOk l = true ∧ wsFlat l = true ∧
      (∀ c ∈ l, isUniSpace c = false ∧ c ≠ '\r') :=
    fun l hl => hM_lines l (hM4mem l hl)
  have hM4ne : M4 ≠ [] := by
    intro hnil
    rw [hnil] at hyM4
    exact hy hyM4
  -- the five stage fixed points on the output
  have fix1 : replUni (normalizeText x) = normalizeText x := by
    apply replUni_fix
    intro c hc
    rw [hyM4] at hc
    rcases mem_joinNL M4 c hc with ⟨l, hl, hcl⟩ | h
    · exact ((hM4props l hl).2.2.2.2 c hcl).1
    · subst h; decide
  have fix2 : normNewlines (normalizeText x) = normalizeText x := by
    apply normNewlines_fix
    intro hc
    rw [hyM4] at hc
    rcases mem_joinNL M4 '\r' hc with ⟨l, hl, hcl⟩ | h
    · exact ((hM4props l hl).2.2.2.2 '\r' hcl).2 rfl
    · exact absurd h (by decide)
  have fix3 : collapseNL (normalizeText x) = normalizeText x := by
    unfold collapseNL
    exact collapseNLF_fix _ _ h3
  have fix4 : collapseWs (normalizeText x) = normalizeText x := by
    apply collapseWs_fix
    rw [hyM4]
    exact wsFlat_joinNL M4 (fun l hl => (hM4props l hl).2.2.2.1)
  have fix5 : trimLines (normalizeText x) = normalizeText x := by
    apply trimLines_fix
    intro line hline
    rw [hyM4] at hline
    rw [splitNL_joinNL M4 hM4ne (fun l hl => (hM4props l hl).2.1)] at hline
    exact (hM4props line hline).1
  have fix6 : jsTrim (normalizeText x) = normalizeText x := by
    rw [hydef]
    exact jsTrim_idem _
  show normalizeText (normalizeText x) = normalizeText x
  generalize hgen : normalizeText x = y at fix1 fix2 fix3 fix4 fix5 fix6 hy ⊢
  unfold normalizeText
  rw [if_neg hy, fix1, fix2]
  rw [show collapseNL y = y from fix3]
  rw [fix4, fix5, fix6]

/-- Witness for C6 at an input whose normalization is triple-newline
free. -/
theorem C6_idempotent_witness :
    hasTripleNL (normalizeText (lc "  Hello\r\n\r\n\r\nWorld  !  \t x ")) = false ∧
    normalizeText (normalizeText (lc "  Hello\r\n\r\n\r\nWorld  !  \t x "))
      = normalizeText (lc "  Hello\r\n\r\n\r\nWorld  !  \t x ") :=
  ⟨by decide, C6_idempotent_when_no_triple_newline _ (by decide)⟩
